import Mathlib

/-!
# Verification of the `stagegen` tool's core logic

This file gives a shallow embedding, in Lean 4, of the parts of the
`stagegen` repository (TypeScript) that its design specification makes
claims about:

* the hints-file writer `writeTargetHints` and a model of the hints-file
  reader `readReferenceHints` (`src/io.ts`),
* the hint-generation step `generateHints` (`src/generate.ts`),
* the file-discovery heuristic `findMainFileRecursive` (`src/io.ts`),
* the effectful writers `prepareSolutionCodeDir`, `writeSolutionOverStarter`
  and `writeTargetHints` (`src/io.ts`), embedded as effect-trace producers,
* the bounded concurrent task runner `runPool` (`src/index.ts`), embedded
  as a small-step transition system over pool states.

Definitions are translated from the TypeScript source; each definition's
doc comment names the source function it embeds.  JavaScript strings are
modelled as Lean `String`s, JavaScript arrays as `List`s, and the
single-threaded-with-interleaving concurrency of the promise pool as a
nondeterministic small-step relation.
-/

namespace StageGen

/-! ## JavaScript string primitives

`String.prototype.split("\n")` and `Array.prototype.join("\n")` as used by
`writeTargetHints` (src/io.ts lines 291-306), modelled over `List Char`
so that their algebra is provable. -/

/-- Split a character list at every newline character.  Models JavaScript
`s.split("\n")` at the character level: the result is always nonempty, and
`[]` maps to `[[]]` just as `"".split("\n")` is `[""]`. -/
def splitNlChars : List Char → List (List Char)
  | [] => [[]]
  | c :: rest =>
    match splitNlChars rest with
    | [] => [[]]
    | r :: rs => if c = '\n' then [] :: r :: rs else (c :: r) :: rs

/-- JavaScript `s.split("\n")` on Lean strings. -/
def splitNl (s : String) : List String :=
  (splitNlChars s.data).map String.mk

/-- JavaScript `Array.prototype.join(sep)`. -/
def joinSep (sep : String) : List String → String
  | [] => ""
  | [x] => x
  | x :: y :: rest => x ++ sep ++ joinSep sep (y :: rest)

theorem splitNlChars_ne_nil (cs : List Char) : splitNlChars cs ≠ [] := by
  cases cs with
  | nil => simp [splitNlChars]
  | cons c rest =>
    simp only [splitNlChars]
    cases splitNlChars rest with
    | nil => simp
    | cons r rs => by_cases hc : c = '\n' <;> simp [hc]

theorem splitNl_ne_nil (s : String) : splitNl s ≠ [] := by
  have := splitNlChars_ne_nil s.data
  simp [splitNl, this]

/-- Splitting distributes over an explicit newline. -/
theorem splitNlChars_append (a b : List Char) :
    splitNlChars (a ++ '\n' :: b) = splitNlChars a ++ splitNlChars b := by
  induction a with
  | nil =>
    cases h2 : splitNlChars b with
    | nil => exact absurd h2 (splitNlChars_ne_nil b)
    | cons y ys => simp [splitNlChars, h2]
  | cons c a ih =>
    cases h : splitNlChars a with
    | nil => exact absurd h (splitNlChars_ne_nil a)
    | cons x xs =>
      show splitNlChars (c :: (a ++ '\n' :: b)) = splitNlChars (c :: a) ++ splitNlChars b
      by_cases hc : c = '\n'
      · subst hc
        simp [splitNlChars, ih, h]
      · simp [splitNlChars, ih, h, if_neg hc]

/-- A chunk produced by `splitNlChars` contains no newline. -/
theorem splitNlChars_no_newline (cs : List Char) :
    ∀ l ∈ splitNlChars cs, '\n' ∉ l := by
  induction cs with
  | nil => simp [splitNlChars]
  | cons c rest ih =>
    intro l hl
    cases h2 : splitNlChars rest with
    | nil => exact absurd h2 (splitNlChars_ne_nil rest)
    | cons x xs =>
      have hx : x ∈ splitNlChars rest := by simp [h2]
      by_cases hc : c = '\n'
      · subst hc
        simp only [splitNlChars, h2, if_true, List.mem_cons] at hl
        rcases hl with rfl | h | h
        · simp
        · exact h ▸ ih x hx
        · exact ih l (by simp [h2, h])
      · simp only [splitNlChars, h2, if_neg hc, List.mem_cons] at hl
        rcases hl with rfl | hl
        · intro hmem
          rcases List.mem_cons.mp hmem with h | h
          · exact hc h.symm
          · exact ih x hx h
        · exact ih l (by simp [h2, hl])

/-- A newline-free character list splits to the single chunk itself. -/
theorem splitNlChars_of_no_newline (cs : List Char) (h : '\n' ∉ cs) :
    splitNlChars cs = [cs] := by
  induction cs with
  | nil => simp [splitNlChars]
  | cons c rest ih =>
    have hc : c ≠ '\n' := fun hh => h (hh ▸ List.mem_cons_self c rest)
    have hrest : '\n' ∉ rest := fun hh => h (List.mem_cons_of_mem c hh)
    simp [splitNlChars, ih hrest, if_neg hc]

/-! ## String-level split/join algebra -/

theorem string_mk_data (s : String) : String.mk s.data = s := by
  cases s; rfl

theorem data_string_mk (l : List Char) : (String.mk l).data = l := rfl

theorem data_append_char (a b : String) :
    (a ++ "\n" ++ b).data = a.data ++ '\n' :: b.data := by
  rw [String.data_append, String.data_append]
  simp

/-- A newline-free string splits to the singleton list of itself. -/
theorem splitNl_of_no_newline (s : String) (h : '\n' ∉ s.data) : splitNl s = [s] := by
  simp [splitNl, splitNlChars_of_no_newline s.data h, string_mk_data]

theorem splitNl_append (a b : String) :
    splitNl (a ++ "\n" ++ b) = splitNl a ++ splitNl b := by
  simp [splitNl, data_append_char, splitNlChars_append]

/-- Splitting a `"\n"`-join recovers the lines, provided the list is nonempty. -/
theorem splitNl_joinSep (L : List String) (hL : L ≠ []) :
    splitNl (joinSep "\n" L) = (L.map splitNl).flatten := by
  induction L with
  | nil => exact absurd rfl hL
  | cons x rest ih =>
    cases rest with
    | nil => simp [joinSep]
    | cons y t =>
      have : joinSep "\n" (x :: y :: t) = x ++ "\n" ++ joinSep "\n" (y :: t) := rfl
      rw [this, splitNl_append, ih (by simp)]
      simp

/-! ## JSON string literals

`JSON.stringify` on strings, as used for `title_markdown` values in
`writeTargetHints` (src/io.ts line 300): every `"`, `\` and control
character is escaped, everything else is copied verbatim.  The inverse
models how a YAML double-quoted scalar (a superset of JSON string
literals) is decoded by the external `yaml` package used by
`readReferenceHints` (src/io.ts line 457). -/

/-- Lower-case hexadecimal digit, as produced by `JSON.stringify` for
control-character escapes. -/
def hexDigitChar (n : Nat) : Char :=
  if n < 10 then Char.ofNat ('0'.toNat + n) else Char.ofNat ('a'.toNat + (n - 10))

/-- The escape `JSON.stringify` applies to a single character. -/
def escapeJsonChar (c : Char) : List Char :=
  if c = '"' then ['\\', '"']
  else if c = '\\' then ['\\', '\\']
  else if c = '\n' then ['\\', 'n']
  else if c = '\r' then ['\\', 'r']
  else if c = '\t' then ['\\', 't']
  else if c = '\x08' then ['\\', 'b']
  else if c = '\x0c' then ['\\', 'f']
  else if c.toNat < 0x20 then
    ['\\', 'u', '0', '0', hexDigitChar (c.toNat / 16), hexDigitChar (c.toNat % 16)]
  else [c]

def escapeJsonChars : List Char → List Char
  | [] => []
  | c :: rest => escapeJsonChar c ++ escapeJsonChars rest

/-- `JSON.stringify` applied to a string value. -/
def jsonStringify (s : String) : String :=
  String.mk ('"' :: (escapeJsonChars s.data ++ ['"']))

/-- Value of one hexadecimal digit. -/
def hexVal (c : Char) : Option Nat :=
  if '0' ≤ c ∧ c ≤ '9' then some (c.toNat - '0'.toNat)
  else if 'a' ≤ c ∧ c ≤ 'f' then some (c.toNat - 'a'.toNat + 10)
  else if 'A' ≤ c ∧ c ≤ 'F' then some (c.toNat - 'A'.toNat + 10)
  else none

/-- Single-character escape codes of JSON / YAML double-quoted scalars. -/
def jsonEscCode (e : Char) : Option Char :=
  if e = '"' then some '"'
  else if e = '\\' then some '\\'
  else if e = '/' then some '/'
  else if e = 'n' then some '\n'
  else if e = 'r' then some '\r'
  else if e = 't' then some '\t'
  else if e = 'b' then some '\x08'
  else if e = 'f' then some '\x0c'
  else none

/-- Combined value of four hexadecimal digits. -/
def hexVal4 (a b c d : Char) : Option Nat :=
  match hexVal a, hexVal b, hexVal c, hexVal d with
  | some x, some y, some z, some w => some (((x * 16 + y) * 16 + z) * 16 + w)
  | _, _, _, _ => none

/-- Decode the character list following the opening quote of a JSON-style
string literal; succeeds only when the closing quote is the final
character.  Models how the YAML reader decodes the single-line
double-quoted `title_markdown` scalar. -/
def unescapeJsonChars : List Char → Option (List Char)
  | [] => none
  | '"' :: rest => if rest = [] then some [] else none
  | '\\' :: 'u' :: h1 :: h2 :: h3 :: h4 :: rest =>
    (hexVal4 h1 h2 h3 h4).bind
      (fun v => (unescapeJsonChars rest).map (fun l => Char.ofNat v :: l))
  | '\\' :: e :: rest =>
    (jsonEscCode e).bind (fun ch => (unescapeJsonChars rest).map (fun l => ch :: l))
  | ['\\'] => none
  | c :: rest => (unescapeJsonChars rest).map (fun l => c :: l)

/-- Parse a complete JSON string literal. -/
def jsonParseString (s : String) : Option String :=
  match s.data with
  | '"' :: rest => (unescapeJsonChars rest).map String.mk
  | _ => none

theorem hexVal_hexDigitChar : ∀ n, n < 16 → hexVal (hexDigitChar n) = some n := by
  decide

theorem unescape_escape (cs : List Char) :
    unescapeJsonChars (escapeJsonChars cs ++ ['"']) = some cs := by
  induction cs with
  | nil => simp [escapeJsonChars, unescapeJsonChars]
  | cons c rest ih =>
    rw [show escapeJsonChars (c :: rest) = escapeJsonChar c ++ escapeJsonChars rest from rfl,
      List.append_assoc]
    by_cases h1 : c = '"'
    · subst h1; simp [escapeJsonChar, unescapeJsonChars, jsonEscCode, ih]
    · by_cases h2 : c = '\\'
      · subst h2; simp [escapeJsonChar, unescapeJsonChars, jsonEscCode, ih]
      · by_cases h3 : c = '\n'
        · subst h3; simp [escapeJsonChar, unescapeJsonChars, jsonEscCode, ih]
        · by_cases h4 : c = '\r'
          · subst h4; simp [escapeJsonChar, unescapeJsonChars, jsonEscCode, ih]
          · by_cases h5 : c = '\t'
            · subst h5; simp [escapeJsonChar, unescapeJsonChars, jsonEscCode, ih]
            · by_cases h6 : c = '\x08'
              · subst h6; simp [escapeJsonChar, unescapeJsonChars, jsonEscCode, ih]
              · by_cases h7 : c = '\x0c'
                · subst h7; simp [escapeJsonChar, unescapeJsonChars, jsonEscCode, ih]
                · by_cases h8 : c.toNat < 0x20
                  · have hdiv : c.toNat / 16 < 16 := by omega
                    have hmod : c.toNat % 16 < 16 := by omega
                    simp only [escapeJsonChar, if_neg h1, if_neg h2, if_neg h3, if_neg h4,
                      if_neg h5, if_neg h6, if_neg h7, if_pos h8, List.cons_append,
                      List.nil_append]
                    simp [unescapeJsonChars, hexVal4, hexVal_hexDigitChar _ hdiv,
                      hexVal_hexDigitChar _ hmod, ih,
                      show hexVal '0' = some 0 from by decide]
                    have hh : c.toNat / 16 * 16 + c.toNat % 16 = c.toNat := by omega
                    rw [hh, Char.ofNat_toNat]
                  · simp only [escapeJsonChar, if_neg h1, if_neg h2, if_neg h3, if_neg h4,
                      if_neg h5, if_neg h6, if_neg h7, if_neg h8, List.cons_append,
                      List.nil_append]
                    simp [unescapeJsonChars, h1, h2, ih]

theorem jsonParse_jsonStringify (s : String) :
    jsonParseString (jsonStringify s) = some s := by
  have h : jsonParseString (jsonStringify s)
      = (unescapeJsonChars (escapeJsonChars s.data ++ ['"'])).map String.mk := rfl
  rw [h, unescape_escape]
  exact congrArg some (string_mk_data s)

theorem newline_not_mem_escapeJsonChar (c : Char) : '\n' ∉ escapeJsonChar c := by
  have h0 : ∀ n, n < 16 → hexDigitChar n ≠ '\n' := by decide
  unfold escapeJsonChar
  split_ifs with h1 h2 h3 h4 h5 h6 h7 h8
  · decide
  · decide
  · decide
  · decide
  · decide
  · decide
  · decide
  · have hdiv : c.toNat / 16 < 16 := by omega
    have hmod : c.toNat % 16 < 16 := by omega
    intro hmem
    simp only [List.mem_cons, List.not_mem_nil, or_false] at hmem
    rcases hmem with h | h | h | h | h | h
    · exact absurd h (by decide)
    · exact absurd h (by decide)
    · exact absurd h (by decide)
    · exact absurd h (by decide)
    · exact h0 _ hdiv h.symm
    · exact h0 _ hmod h.symm
  · intro hmem
    rw [List.mem_singleton] at hmem
    exact h3 hmem.symm

theorem newline_not_mem_escapeJsonChars (cs : List Char) :
    '\n' ∉ escapeJsonChars cs := by
  induction cs with
  | nil => simp [escapeJsonChars]
  | cons c rest ih =>
    simp only [escapeJsonChars, List.mem_append]
    rintro (h | h)
    · exact newline_not_mem_escapeJsonChar c h
    · exact ih h

/-- The printed form of a JSON string literal contains no newline. -/
theorem jsonStringify_no_newline (s : String) : '\n' ∉ (jsonStringify s).data := by
  simp only [jsonStringify]
  intro hmem
  rw [data_string_mk] at hmem
  rcases List.mem_cons.mp hmem with h | h
  · exact absurd h (by decide)
  · rcases List.mem_append.mp h with h | h
    · exact newline_not_mem_escapeJsonChars s.data h
    · simp at h

/-! ## The hints data model and the hints-file writer

`Hint` is the `Hint` type of src/types.ts.  `writeTargetHintsText` is the
string `txt` built by `writeTargetHints` (src/io.ts lines 291-306); the
`|| ""` guards of the source are identities on strings and are therefore
not written out. -/

structure Hint where
  title_markdown : String
  body_markdown : String
deriving DecidableEq

/-- The `  - title_markdown: ${JSON.stringify(h.title_markdown || "")}` line. -/
def titleLine (h : Hint) : String :=
  "  - title_markdown: " ++ jsonStringify h.title_markdown

/-- The fixed `    body_markdown: |-` marker line. -/
def markerLine : String := "    body_markdown: |-"

/-- `(h.body_markdown || "").split("\n").map(l => "      " + l)`. -/
def bodyLines (h : Hint) : List String :=
  (splitNl h.body_markdown).map (fun l => "      " ++ l)

/-- The indented block-literal body: the body lines re-joined with `"\n"`. -/
def bodyBlock (h : Hint) : String :=
  joinSep "\n" (bodyLines h)

/-- One hint's entry: title line, block marker and indented body. -/
def entryText (h : Hint) : String :=
  joinSep "\n" [titleLine h, markerLine, bodyBlock h]

/-- The full text written by `writeTargetHints` (src/io.ts lines 291-306). -/
def writeTargetHintsText (hints : List Hint) : String :=
  "hints:\n" ++ joinSep "\n" (hints.map entryText) ++ "\n"

/-- The lines of one hint entry. -/
def entryLines (h : Hint) : List String :=
  titleLine h :: markerLine :: bodyLines h

/-- The line decomposition of the written hints file. -/
def docLines (hints : List Hint) : List String :=
  "hints:" :: ((if hints.isEmpty then [""] else (hints.map entryLines).flatten) ++ [""])

theorem titleLine_no_newline (h : Hint) : '\n' ∉ (titleLine h).data := by
  simp only [titleLine, String.data_append]
  intro hmem
  rcases List.mem_append.mp hmem with hm | hm
  · revert hm; decide
  · exact jsonStringify_no_newline _ hm

theorem mem_splitNl_no_newline (s l : String) (h : l ∈ splitNl s) : '\n' ∉ l.data := by
  simp only [splitNl, List.mem_map] at h
  obtain ⟨cs, hcs, rfl⟩ := h
  rw [data_string_mk]
  exact splitNlChars_no_newline s.data cs hcs

theorem flatten_map_singleton {α : Type} (f : α → List α) (L : List α)
    (h : ∀ l ∈ L, f l = [l]) : (L.map f).flatten = L := by
  induction L with
  | nil => simp
  | cons x xs ih =>
    simp only [List.map_cons, List.flatten_cons, h x (List.mem_cons_self x xs)]
    rw [ih (fun l hl => h l (List.mem_cons_of_mem x hl))]
    rfl

theorem splitNl_bodyBlock (h : Hint) : splitNl (bodyBlock h) = bodyLines h := by
  have hne : bodyLines h ≠ [] := by
    simp [bodyLines, splitNl_ne_nil h.body_markdown]
  rw [bodyBlock, splitNl_joinSep _ hne]
  apply flatten_map_singleton
  intro l hl
  simp only [bodyLines, List.mem_map] at hl
  obtain ⟨x, hx, rfl⟩ := hl
  apply splitNl_of_no_newline
  rw [String.data_append]
  intro hmem
  rcases List.mem_append.mp hmem with hm | hm
  · revert hm; decide
  · exact mem_splitNl_no_newline _ _ hx hm

theorem splitNl_entryText (h : Hint) : splitNl (entryText h) = entryLines h := by
  have h1 : entryText h = titleLine h ++ "\n" ++ (markerLine ++ "\n" ++ bodyBlock h) := rfl
  rw [h1, splitNl_append, splitNl_append]
  rw [splitNl_of_no_newline _ (titleLine_no_newline h),
    splitNl_of_no_newline markerLine (by decide), splitNl_bodyBlock]
  rfl

theorem splitNl_writeTargetHintsText (hints : List Hint) :
    splitNl (writeTargetHintsText hints) = docLines hints := by
  have h1 : writeTargetHintsText hints
      = "hints:" ++ "\n" ++ (joinSep "\n" (hints.map entryText) ++ "\n" ++ "") := by
    simp only [writeTargetHintsText]
    rw [String.append_empty]
    rw [show ("hints:\n" : String) = "hints:" ++ "\n" from rfl, String.append_assoc]
  rw [h1, splitNl_append, splitNl_append]
  have h2 : splitNl "hints:" = ["hints:"] := by decide
  have h3 : splitNl "" = [""] := by decide
  rw [h2, h3]
  cases hh : hints with
  | nil => simp [joinSep, docLines, h3]
  | cons x xs =>
    have hne : (x :: xs).map entryText ≠ [] := by simp
    rw [splitNl_joinSep _ hne, docLines]
    simp only [List.isEmpty_cons, Bool.false_eq_true, if_false, List.cons_append,
      List.nil_append, List.cons.injEq, true_and]
    rw [List.map_map]
    have hfun : splitNl ∘ entryText = entryLines := funext splitNl_entryText
    rw [hfun]

/-! ## The hints pipeline of `generateHints` (src/generate.ts) -/

/-- Decoded JSON object of the backend's hints response: the value of
`JSON.parse(resp.choices[0].message?.content || String.raw..hints..)` in
`generateHints` (src/generate.ts lines 374-375).  `hints := none` models a
decoded object whose `hints` field is absent (or null / otherwise falsy). -/
structure HintsResponse where
  hints : Option (List Hint)

/-- `generateHints` (src/generate.ts lines 349-376): builds the hints
prompt (which embeds the fixed titles), sends it to the backend, and
returns `parsed.hints || []` from the decoded response.  The prompt only
influences the request, not the returned value, so the embedding keeps the
`fixedTitles` argument but the result is exactly the decoded response's
hints.  (A JSON parse failure would instead abort the task by exception,
so nothing would be written in that case.) -/
def generateHints (fixedTitles : List String) (resp : HintsResponse) : List Hint :=
  resp.hints.getD []

/-- Decode one line of the written file as a title entry: lines carrying
the `  - title_markdown: ` key yield their decoded JSON string value. -/
def titleProbe (l : String) : Option String :=
  if "  - title_markdown: ".data.isPrefixOf l.data
  then jsonParseString (String.mk (l.data.drop 20))
  else none

/-- The titles recorded in a written hints file: every line carrying the
`  - title_markdown: ` key, with its JSON string value decoded.  Body
lines can never alias a title line because the writer indents each of
them with six spaces. -/
def extractTitles (txt : String) : List String :=
  (splitNl txt).filterMap titleProbe

theorem isPrefixOf_append_self (a b : List Char) : a.isPrefixOf (a ++ b) = true := by
  induction a with
  | nil => simp [List.isPrefixOf]
  | cons c rest ih => simp [List.isPrefixOf, ih]

theorem titleProbe_titleLine (h : Hint) :
    titleProbe (titleLine h) = some h.title_markdown := by
  have hdata : (titleLine h).data
      = "  - title_markdown: ".data ++ (jsonStringify h.title_markdown).data := by
    simp [titleLine, String.data_append]
  rw [titleProbe, hdata, isPrefixOf_append_self, if_pos rfl]
  rw [show (20 : Nat) = "  - title_markdown: ".data.length from by decide, List.drop_left]
  rw [string_mk_data]
  exact jsonParse_jsonStringify h.title_markdown

theorem titleProbe_bodyLine (l : String) : titleProbe ("      " ++ l) = none := by
  rw [titleProbe]
  rw [show ("      " ++ l).data = ' ' :: ' ' :: ' ' :: ' ' :: ' ' :: ' ' :: l.data from by
    rw [String.data_append]; rfl]
  simp [List.isPrefixOf]

theorem filterMapTitles_entryLines (hs : List Hint) :
    List.filterMap titleProbe ((hs.map entryLines).flatten)
      = hs.map (fun h => h.title_markdown) := by
  induction hs with
  | nil => simp
  | cons y ys ih =>
    simp only [List.map_cons, List.flatten_cons, List.filterMap_append, ih]
    rw [entryLines]
    rw [List.filterMap_cons_some (titleProbe_titleLine y)]
    rw [List.filterMap_cons_none (show titleProbe markerLine = none from by decide)]
    have hbody : List.filterMap titleProbe (bodyLines y) = [] := by
      rw [List.filterMap_eq_nil_iff]
      intro l hl
      simp only [bodyLines, List.mem_map] at hl
      obtain ⟨z, hz, rfl⟩ := hl
      exact titleProbe_bodyLine z
    rw [hbody]
    rfl

/-- What the written file records as titles is exactly the input hints'
`title_markdown` fields. -/
theorem extractTitles_writeTargetHintsText (hints : List Hint) :
    extractTitles (writeTargetHintsText hints) = hints.map (·.title_markdown) := by
  rw [extractTitles, splitNl_writeTargetHintsText]
  cases hints with
  | nil => decide
  | cons x xs =>
    rw [docLines]
    simp only [List.isEmpty_cons, Bool.false_eq_true, if_false]
    rw [List.filterMap_cons_none (show titleProbe "hints:" = none from by decide)]
    rw [List.filterMap_append]
    rw [show List.filterMap titleProbe [""] = [] from by decide, List.append_nil]
    exact filterMapTitles_entryLines (x :: xs)

/-! ## Model of the hints-file reader

`readReferenceHints` (src/io.ts lines 471-495) reads `config.yml` and
parses it with the external `yaml` package; the spec (§6, §4.2) describes
the document as a line-oriented file with top-level key `hints`, quoted
`title_markdown` scalars and block-literal `body_markdown` scalars.  The
parser below is modelled from the spec plus the YAML 1.2 rules the
external package implements for exactly these constructs: line-break
normalization, auto-detected block-scalar indentation, and strip
chomping. -/

/-- Number of leading space characters of a line. -/
def leadingSpaces (l : String) : Nat :=
  (l.data.takeWhile (fun c => c = ' ')).length

/-- A YAML "empty line": only spaces (possibly none). -/
def isAllSpace (l : String) : Bool :=
  l.data.all (fun c => c = ' ')

/-- Drop the first `n` characters of a line. -/
def dropChars (l : String) (n : Nat) : String :=
  String.mk (l.data.drop n)

def dropTrailingEmpties (ls : List String) : List String :=
  (ls.reverse.dropWhile (fun l => l == "")).reverse

/-- Trailing-newline chomping: the strip indicator in `|-` removes all
trailing line breaks of the literal content, i.e. all trailing empty
lines. -/
def chompBody (b : String) : String :=
  joinSep "\n" (dropTrailingEmpties (splitNl b))

/-- A line that can belong to the block scalar under `body_markdown: |-`:
a YAML empty line, or a line indented past the mapping at indentation 4. -/
def isBlockLine (l : String) : Bool :=
  isAllSpace l || decide (5 ≤ leadingSpaces l)

/-- Content of a block-literal scalar per YAML: the indentation is
auto-detected from the first non-empty line; a leading empty line with
more spaces than that, or a later non-empty line with fewer, is a parse
error; each kept line is the raw line minus the detected indentation
(extra spaces of over-long empty lines are content); strip chomping then
removes trailing empty lines. -/
def blockContent (blockRaw : List String) : Option String :=
  match blockRaw.find? (fun l => !isAllSpace l) with
  | none => some ""
  | some firstContent =>
    let d := leadingSpaces firstContent
    if (blockRaw.takeWhile isAllSpace).all (fun l => l.data.length ≤ d)
        && blockRaw.all (fun l => isAllSpace l || decide (d ≤ leadingSpaces l)) then
      some (joinSep "\n" (dropTrailingEmpties (blockRaw.map (fun l => dropChars l d))))
    else none

def allEmptyLines (ls : List String) : Bool :=
  ls.all (fun l => l == "")

/-- Parse the entry list following the `hints:` header line.  The `fuel`
argument only forces structural termination: every entry consumes at
least two lines, so `fuel = lines.length` (as used by `parseEntries`)
never runs out. -/
def parseEntriesF (fuel : Nat) (lines : List String) : Option (List Hint) :=
  if allEmptyLines lines then some []
  else
    match fuel, lines with
    | fuel' + 1, l1 :: l2 :: rest =>
      if "  - title_markdown: ".data.isPrefixOf l1.data && l2 == markerLine then
        match jsonParseString (dropChars l1 20) with
        | none => none
        | some t =>
          match blockContent (rest.takeWhile isBlockLine) with
          | none => none
          | some b =>
            match parseEntriesF fuel' (rest.dropWhile isBlockLine) with
            | none => none
            | some hs => some ({ title_markdown := t, body_markdown := b } :: hs)
      else none
    | _, _ => none

def parseEntries (lines : List String) : Option (List Hint) :=
  parseEntriesF lines.length lines

/-- YAML line-break normalization: `\r\n` and a lone `\r` both read as a
line break. -/
def normChars : List Char → List Char
  | [] => []
  | '\r' :: '\n' :: rest => '\n' :: normChars rest
  | '\r' :: rest => '\n' :: normChars rest
  | c :: rest => c :: normChars rest

/-- Modelled from the spec: the YAML parse of a hints `config.yml`
(the repository delegates this to the external `yaml` package, which is
out of scope of src/).  Handles the line-oriented document shape of §6:
a `hints:` header, then entries of a double-quoted `title_markdown` line,
a `body_markdown: |-` marker and an indented block literal.  `none`
models a YAML parse error (or a document whose `hints` value is not an
array, which the reader treats the same way); a document with a `hints:`
header and no entries parses as an empty list, as the reader maps a null
`hints` value to `[]` as well. -/
def parseHintsDoc (txt : String) : Option (List Hint) :=
  match splitNl (String.mk (normChars txt.data)) with
  | header :: rest => if header == "hints:" then parseEntries rest else none
  | [] => none

/-- `readReferenceHints` (src/io.ts lines 471-495): a missing file
(`none`), a YAML parse failure, or a `hints` value that is not an array
all degrade to the empty hint list. -/
def readReferenceHints (file : Option String) : List Hint :=
  match file with
  | none => []
  | some txt => (parseHintsDoc txt).getD []

/-! ## Round-trip lemmas for the hints file -/

/-- A line that is empty or does not start with a space: bodies made of
such lines keep the auto-detected block indentation at exactly six. -/
def lineOk (l : String) : Bool :=
  match l.data with
  | [] => true
  | c :: _ => !(c == ' ')

/-- Bodies whose written block literal reads back exactly (up to
chomping): no carriage returns and no line starting with a space. -/
def bodyOk (b : String) : Bool :=
  !(b.data.contains '\r') && (splitNl b).all lineOk

theorem data_eq_nil_iff (s : String) : s.data = [] ↔ s = "" :=
  ⟨fun h => by cases s; simp_all, fun h => by rw [h]⟩

theorem sixSpaces_data (x : String) :
    ("      " ++ x).data = ' ' :: ' ' :: ' ' :: ' ' :: ' ' :: ' ' :: x.data := by
  rw [String.data_append]; rfl

theorem isAllSpace_six (x : String) : isAllSpace ("      " ++ x) = isAllSpace x := by
  simp [isAllSpace, sixSpaces_data]

theorem leadingSpaces_six (x : String) :
    leadingSpaces ("      " ++ x) = 6 + leadingSpaces x := by
  simp only [leadingSpaces, sixSpaces_data]
  rw [List.takeWhile_cons_of_pos (by decide), List.takeWhile_cons_of_pos (by decide),
    List.takeWhile_cons_of_pos (by decide), List.takeWhile_cons_of_pos (by decide),
    List.takeWhile_cons_of_pos (by decide), List.takeWhile_cons_of_pos (by decide)]
  simp
  omega

theorem dropChars_six (x : String) : dropChars ("      " ++ x) 6 = x := by
  rw [dropChars, sixSpaces_data]
  simp [string_mk_data]

theorem lineOk_isAllSpace_iff (x : String) (h : lineOk x = true) :
    isAllSpace x = true ↔ x = "" := by
  constructor
  · intro hs
    rw [← data_eq_nil_iff]
    cases hx : x.data with
    | nil => rfl
    | cons c t =>
      rw [lineOk, hx] at h
      rw [isAllSpace, hx] at hs
      simp at h hs
      exact absurd hs.1 h
  · intro hx; subst hx; rfl

theorem lineOk_leadingSpaces (x : String) (h : lineOk x = true) (hne : x ≠ "") :
    leadingSpaces x = 0 := by
  cases hx : x.data with
  | nil => exact absurd ((data_eq_nil_iff x).mp hx) hne
  | cons c t =>
    rw [lineOk, hx] at h
    simp at h
    rw [leadingSpaces, hx, List.takeWhile_cons_of_neg (by simpa using h)]
    rfl

theorem isBlockLine_six (x : String) : isBlockLine ("      " ++ x) = true := by
  rw [isBlockLine, leadingSpaces_six]
  simp only [Bool.or_eq_true, decide_eq_true_eq]
  right
  omega

theorem takeWhile_append_all {α : Type} (p : α → Bool) (X Y : List α)
    (h : ∀ x ∈ X, p x = true) :
    (X ++ Y).takeWhile p = X ++ Y.takeWhile p := by
  induction X with
  | nil => simp
  | cons a t ih =>
    rw [List.cons_append, List.takeWhile_cons_of_pos (h a (List.mem_cons_self a t)),
      ih (fun x hx => h x (List.mem_cons_of_mem a hx))]
    rfl

theorem dropWhile_append_all {α : Type} (p : α → Bool) (X Y : List α)
    (h : ∀ x ∈ X, p x = true) :
    (X ++ Y).dropWhile p = Y.dropWhile p := by
  induction X with
  | nil => simp
  | cons a t ih =>
    rw [List.cons_append, List.dropWhile_cons_of_pos (h a (List.mem_cons_self a t)),
      ih (fun x hx => h x (List.mem_cons_of_mem a hx))]

theorem takeWhile_all {α : Type} (p : α → Bool) (X : List α) (h : ∀ x ∈ X, p x = true) :
    X.takeWhile p = X := by
  have := takeWhile_append_all p X [] h
  simpa using this

theorem dropWhile_all {α : Type} (p : α → Bool) (X : List α) (h : ∀ x ∈ X, p x = true) :
    X.dropWhile p = [] := by
  have := dropWhile_append_all p X [] h
  simpa using this

theorem dropTrailingEmpties_append (A B : List String) (hB : ∀ b ∈ B, b = "") :
    dropTrailingEmpties (A ++ B) = dropTrailingEmpties A := by
  rw [dropTrailingEmpties, dropTrailingEmpties, List.reverse_append]
  rw [dropWhile_append_all _ B.reverse A.reverse
    (fun x hx => by rw [hB x (List.mem_reverse.mp hx)]; rfl)]

theorem dropTrailingEmpties_all_empty (L : List String) (h : ∀ l ∈ L, l = "") :
    dropTrailingEmpties L = [] := by
  rw [dropTrailingEmpties, dropWhile_all _ _
    (fun x hx => by rw [h x (List.mem_reverse.mp hx)]; rfl)]
  rfl

theorem all_takeWhile_of_imp {α : Type} (p q : α → Bool) (l : List α)
    (h : ∀ a ∈ l, p a = true → q a = true) : (l.takeWhile p).all q = true := by
  rw [List.all_eq_true]
  intro a ha
  have hp : p a = true := List.mem_takeWhile_imp ha
  have hmem : a ∈ l := (List.takeWhile_prefix p).subset ha
  exact h a hmem hp

theorem isAllSpace_empty_string : isAllSpace "" = true := rfl

theorem find_nonspace_bodyLines (xs T : List String)
    (hxs : ∀ x ∈ xs, lineOk x = true) (hT : ∀ t ∈ T, t = "") :
    List.find? (fun l => !isAllSpace l) (xs.map (fun l => "      " ++ l) ++ T)
      = (xs.find? (fun x => !(x == ""))).map (fun x => "      " ++ x) := by
  induction xs with
  | nil =>
    simp only [List.map_nil, List.nil_append, List.find?_nil, Option.map_none']
    rw [List.find?_eq_none]
    intro t ht
    rw [hT t ht]
    simp [isAllSpace_empty_string]
  | cons x t ih =>
    by_cases hx : x = ""
    · subst hx
      rw [List.map_cons, List.cons_append,
        List.find?_cons_of_neg _ (by decide),
        List.find?_cons_of_neg _ (by simp),
        ih (fun y hy => hxs y (List.mem_cons_of_mem _ hy))]
    · have hns : isAllSpace x = false := by
        rcases Bool.eq_false_or_eq_true (isAllSpace x) with h | h
        · exact absurd ((lineOk_isAllSpace_iff x (hxs x (List.mem_cons_self x t))).mp h) hx
        · exact h
      rw [List.map_cons, List.cons_append,
        List.find?_cons_of_pos _ (by simp [isAllSpace_six, hns]),
        List.find?_cons_of_pos _ (by simp [hx])]
      rfl

theorem bodyLine_allSpace_len (x : String) (hok : lineOk x = true)
    (h : isAllSpace ("      " ++ x) = true) : ("      " ++ x).data.length ≤ 6 := by
  rw [isAllSpace_six] at h
  have : x = "" := (lineOk_isAllSpace_iff x hok).mp h
  subst this
  rw [sixSpaces_data]
  simp

/-- The block scalar written for a well-behaved body reads back as the
chomped body lines. -/
theorem blockContent_bodyLines (xs T : List String)
    (hxs : ∀ x ∈ xs, lineOk x = true) (hT : ∀ t ∈ T, t = "") :
    blockContent (xs.map (fun l => "      " ++ l) ++ T)
      = some (joinSep "\n" (dropTrailingEmpties xs)) := by
  rw [blockContent]
  rw [find_nonspace_bodyLines xs T hxs hT]
  cases hfind : xs.find? (fun x => !(x == "")) with
  | none =>
    have hall : ∀ x ∈ xs, x = "" := by
      intro x hx
      have := List.find?_eq_none.mp hfind x hx
      simpa using this
    rw [dropTrailingEmpties_all_empty xs hall]
    rfl
  | some xf =>
    have hmem := List.mem_of_find?_eq_some hfind
    have hne : xf ≠ "" := by simpa using List.find?_some hfind
    have hok := hxs xf hmem
    have hd : leadingSpaces ("      " ++ xf) = 6 := by
      rw [leadingSpaces_six, lineOk_leadingSpaces xf hok hne]
    simp only [Option.map_some']
    rw [hd]
    have hcheck1 : ((xs.map (fun l => "      " ++ l) ++ T).takeWhile isAllSpace).all
        (fun l => decide (l.data.length ≤ 6)) = true := by
      apply all_takeWhile_of_imp
      intro a ha hsp
      rcases List.mem_append.mp ha with h | h
      · simp only [List.mem_map] at h
        obtain ⟨x, hxmem, rfl⟩ := h
        simpa using bodyLine_allSpace_len x (hxs x hxmem) hsp
      · rw [hT a h]
        simp
    have hcheck2 : (xs.map (fun l => "      " ++ l) ++ T).all
        (fun l => isAllSpace l || decide (6 ≤ leadingSpaces l)) = true := by
      rw [List.all_eq_true]
      intro a ha
      rcases List.mem_append.mp ha with h | h
      · simp only [List.mem_map] at h
        obtain ⟨x, hxmem, rfl⟩ := h
        simp [leadingSpaces_six]
      · rw [hT a h]
        simp [isAllSpace_empty_string]
    rw [if_pos (by rw [hcheck1, hcheck2]; rfl)]
    congr 1
    rw [List.map_append, List.map_map]
    have hmap1 : xs.map ((fun l => dropChars l 6) ∘ (fun l => "      " ++ l)) = xs := by
      have : ((fun l => dropChars l 6) ∘ (fun l : String => "      " ++ l)) = id := by
        funext y
        exact dropChars_six y
      rw [this, List.map_id]
    rw [hmap1]
    have hmapT : T.map (fun l => dropChars l 6) = T := by
      conv_rhs => rw [← List.map_id T]
      apply List.map_congr_left
      intro a ha
      rw [hT a ha]
      rfl
    rw [hmapT, dropTrailingEmpties_append xs T hT]

theorem titleLine_data (h : Hint) :
    (titleLine h).data = "  - title_markdown: ".data ++ (jsonStringify h.title_markdown).data := by
  simp [titleLine, String.data_append]

theorem titleLine_ne_empty (h : Hint) : (titleLine h == "") = false := by
  rw [beq_eq_false_iff_ne]
  intro he
  have hd := congrArg String.data he
  rw [titleLine_data] at hd
  simp at hd

theorem titleLine_isPrefixOf (h : Hint) :
    "  - title_markdown: ".data.isPrefixOf (titleLine h).data = true := by
  rw [titleLine_data]
  exact isPrefixOf_append_self _ _

theorem jsonParse_dropChars_titleLine (h : Hint) :
    jsonParseString (dropChars (titleLine h) 20) = some h.title_markdown := by
  rw [dropChars, titleLine_data,
    show (20 : Nat) = "  - title_markdown: ".data.length from by decide,
    List.drop_left, string_mk_data]
  exact jsonParse_jsonStringify _

theorem isBlockLine_titleLine (h : Hint) : isBlockLine (titleLine h) = false := by
  have hlit : "  - title_markdown: ".data = ' ' :: ' ' :: '-' :: " title_markdown: ".data := rfl
  have hsp : isAllSpace (titleLine h) = false := by
    rw [isAllSpace, titleLine_data, hlit]
    simp
  have hls : leadingSpaces (titleLine h) = 2 := by
    rw [leadingSpaces, titleLine_data, hlit]
    simp only [List.cons_append]
    rw [List.takeWhile_cons_of_pos (by decide), List.takeWhile_cons_of_pos (by decide),
      List.takeWhile_cons_of_neg (by decide)]
    rfl
  rw [isBlockLine, hsp, hls]
  simp

theorem isBlockLine_empty : isBlockLine "" = true := by decide

theorem bodyOk_lineOk (b : String) (h : bodyOk b = true) : ∀ l ∈ splitNl b, lineOk l = true := by
  rw [bodyOk, Bool.and_eq_true] at h
  exact List.all_eq_true.mp h.2

/-- The written entry lines of a hint list followed by blank lines parse
back to the hints with chomped bodies. -/
theorem parseEntriesF_spec (hs : List Hint) :
    ∀ (tail : List String) (fuel : Nat),
    (∀ h ∈ hs, bodyOk h.body_markdown = true) →
    (∀ t ∈ tail, t = "") →
    ((hs.map entryLines).flatten ++ tail).length ≤ fuel →
    parseEntriesF fuel ((hs.map entryLines).flatten ++ tail)
      = some (hs.map (fun h =>
          { title_markdown := h.title_markdown,
            body_markdown := chompBody h.body_markdown })) := by
  induction hs with
  | nil =>
    intro tail fuel _ htail _
    simp only [List.map_nil, List.flatten_nil, List.nil_append]
    have hall : allEmptyLines tail = true := by
      rw [allEmptyLines, List.all_eq_true]
      intro t ht
      rw [htail t ht]
      rfl
    rw [parseEntriesF.eq_def, if_pos hall]
  | cons h hs' ih =>
    intro tail fuel hok htail hfuel
    have hshape : (((h :: hs').map entryLines).flatten ++ tail)
        = titleLine h :: markerLine ::
            (bodyLines h ++ ((hs'.map entryLines).flatten ++ tail)) := by
      simp [entryLines, List.append_assoc]
    rw [hshape] at hfuel ⊢
    cases fuel with
    | zero => simp at hfuel
    | succ fuel' =>
      have hne : allEmptyLines (titleLine h :: markerLine ::
          (bodyLines h ++ ((hs'.map entryLines).flatten ++ tail))) = false := by
        simp [allEmptyLines, titleLine_ne_empty h]
      rw [parseEntriesF.eq_1]
      rw [if_neg (by simp [hne])]
      simp only []
      rw [if_pos (by rw [titleLine_isPrefixOf h]; simp)]
      rw [jsonParse_dropChars_titleLine h]
      have hbl : ∀ l ∈ bodyLines h, isBlockLine l = true := by
        intro l hl
        simp only [bodyLines, List.mem_map] at hl
        obtain ⟨x, _, rfl⟩ := hl
        exact isBlockLine_six x
      rw [takeWhile_append_all _ _ _ hbl, dropWhile_append_all _ _ _ hbl]
      have hxs := bodyOk_lineOk h.body_markdown (hok h (List.mem_cons_self h hs'))
      cases hs' with
      | nil =>
        simp only [List.map_nil, List.flatten_nil, List.nil_append]
        rw [takeWhile_all _ tail (fun t ht => by rw [htail t ht]; exact isBlockLine_empty),
          dropWhile_all _ tail (fun t ht => by rw [htail t ht]; exact isBlockLine_empty)]
        rw [show bodyLines h ++ tail
            = (splitNl h.body_markdown).map (fun l => "      " ++ l) ++ tail from rfl]
        rw [blockContent_bodyLines _ tail hxs htail]
        have hrec : parseEntriesF fuel' [] = some [] := by
          simp [parseEntriesF, allEmptyLines]
        rw [hrec]
        rfl
      | cons h2 t2 =>
        have hhead : ((h2 :: t2).map entryLines).flatten ++ tail
            = titleLine h2 :: (markerLine :: bodyLines h2
                ++ ((t2.map entryLines).flatten ++ tail)) := by
          simp [entryLines, List.append_assoc]
        rw [hhead, List.takeWhile_cons_of_neg (by simp [isBlockLine_titleLine h2]),
          List.dropWhile_cons_of_neg (by simp [isBlockLine_titleLine h2])]
        rw [List.append_nil]
        rw [show bodyLines h
            = (splitNl h.body_markdown).map (fun l => "      " ++ l) from rfl]
        rw [show ((splitNl h.body_markdown).map (fun l => "      " ++ l) : List String)
            = (splitNl h.body_markdown).map (fun l => "      " ++ l) ++ [] from
          (List.append_nil _).symm]
        rw [blockContent_bodyLines _ [] hxs (by simp)]
        rw [← hhead]
        have harith : (((h2 :: t2).map entryLines).flatten ++ tail).length ≤ fuel' := by
          simp only [List.length_cons, List.length_append] at hfuel ⊢
          omega
        rw [ih tail fuel' (fun g hg => hok g (List.mem_cons_of_mem h hg)) htail harith]
        rfl

theorem mem_escapeJsonChar_ge (c x : Char) (h : x ∈ escapeJsonChar c) : 0x20 ≤ x.toNat := by
  have h0 : ∀ n, n < 16 → 0x20 ≤ (hexDigitChar n).toNat := by decide
  revert h
  unfold escapeJsonChar
  split_ifs with h1 h2 h3 h4 h5 h6 h7 h8
  · intro h; fin_cases h <;> decide
  · intro h; fin_cases h <;> decide
  · intro h; fin_cases h <;> decide
  · intro h; fin_cases h <;> decide
  · intro h; fin_cases h <;> decide
  · intro h; fin_cases h <;> decide
  · intro h; fin_cases h <;> decide
  · intro h
    have hdiv : c.toNat / 16 < 16 := by omega
    have hmod : c.toNat % 16 < 16 := by omega
    simp only [List.mem_cons, List.not_mem_nil, or_false] at h
    rcases h with rfl | rfl | rfl | rfl | rfl | rfl
    · decide
    · decide
    · decide
    · decide
    · exact h0 _ hdiv
    · exact h0 _ hmod
  · intro h
    rw [List.mem_singleton] at h
    subst h
    omega

theorem cr_not_mem_jsonStringify (s : String) : '\r' ∉ (jsonStringify s).data := by
  have main : ∀ cs : List Char, '\r' ∉ escapeJsonChars cs := by
    intro cs
    induction cs with
    | nil => simp [escapeJsonChars]
    | cons c rest ih =>
      simp only [escapeJsonChars, List.mem_append]
      rintro (h | h)
      · have := mem_escapeJsonChar_ge c '\r' h
        revert this
        decide
      · exact ih h
  simp only [jsonStringify]
  intro hmem
  rw [data_string_mk] at hmem
  rcases List.mem_cons.mp hmem with h | h
  · exact absurd h (by decide)
  · rcases List.mem_append.mp h with h | h
    · exact main s.data h
    · simp at h

theorem mem_splitNlChars_of_mem (cs : List Char) (c : Char) (hc : c ≠ '\n') (h : c ∈ cs) :
    ∃ l ∈ splitNlChars cs, c ∈ l := by
  induction cs with
  | nil => simp at h
  | cons a rest ih =>
    cases h2 : splitNlChars rest with
    | nil => exact absurd h2 (splitNlChars_ne_nil rest)
    | cons x xs =>
      by_cases ha : a = '\n'
      · subst ha
        rcases List.mem_cons.mp h with hca | hr
        · exact absurd hca hc
        · obtain ⟨l, hl, hcl⟩ := ih hr
          refine ⟨l, ?_, hcl⟩
          rw [h2] at hl
          simp [splitNlChars, h2, List.mem_cons]
          rcases List.mem_cons.mp hl with h3 | h3
          · exact Or.inr (Or.inl h3)
          · exact Or.inr (Or.inr h3)
      · rcases List.mem_cons.mp h with hca | hr
        · refine ⟨a :: x, ?_, ?_⟩
          · simp [splitNlChars, h2, if_neg ha]
          · rw [hca]
            exact List.mem_cons_self a x
        · obtain ⟨l, hl, hcl⟩ := ih hr
          rw [h2] at hl
          rcases List.mem_cons.mp hl with hlx | hl2
          · refine ⟨a :: l, ?_, List.mem_cons_of_mem a hcl⟩
            rw [hlx]
            simp [splitNlChars, h2, if_neg ha]
          · exact ⟨l, by simp [splitNlChars, h2, if_neg ha, hl2], hcl⟩

theorem mem_of_mem_splitNlChars (cs : List Char) (l : List Char)
    (hl : l ∈ splitNlChars cs) (c : Char) (hc : c ∈ l) : c ∈ cs := by
  induction cs generalizing l with
  | nil =>
    simp [splitNlChars] at hl
    subst hl
    simp at hc
  | cons a rest ih =>
    cases h2 : splitNlChars rest with
    | nil => exact absurd h2 (splitNlChars_ne_nil rest)
    | cons x xs =>
      have hx : x ∈ splitNlChars rest := by simp [h2]
      by_cases ha : a = '\n'
      · subst ha
        simp only [splitNlChars, h2, if_true, List.mem_cons] at hl
        rcases hl with rfl | hlx | hl
        · simp at hc
        · exact List.mem_cons_of_mem _ (ih l (by rw [hlx]; exact hx) hc)
        · exact List.mem_cons_of_mem _ (ih l (by simp [h2, hl]) hc)
      · simp only [splitNlChars, h2, if_neg ha, List.mem_cons] at hl
        rcases hl with hlax | hl
        · rw [hlax] at hc
          rcases List.mem_cons.mp hc with hca | hc2
          · rw [hca]
            exact List.mem_cons_self a rest
          · exact List.mem_cons_of_mem _ (ih x hx hc2)
        · exact List.mem_cons_of_mem _ (ih l (by simp [h2, hl]) hc)

theorem mem_data_of_mem_splitNl (s l : String) (hl : l ∈ splitNl s) (c : Char)
    (hc : c ∈ l.data) : c ∈ s.data := by
  simp only [splitNl, List.mem_map] at hl
  obtain ⟨cs, hcs, rfl⟩ := hl
  rw [data_string_mk] at hc
  exact mem_of_mem_splitNlChars s.data cs hcs c hc

theorem normChars_id (cs : List Char) (h : '\r' ∉ cs) : normChars cs = cs := by
  induction cs with
  | nil => rfl
  | cons c rest ih =>
    have hc : c ≠ '\r' := fun hh => h (hh ▸ List.mem_cons_self c rest)
    have hrest : '\r' ∉ rest := fun hh => h (List.mem_cons_of_mem c hh)
    simp [normChars, hc, ih hrest]

/-- The writer's output contains no carriage return when no body does. -/
theorem writeTargetHintsText_no_cr (hints : List Hint)
    (hok : ∀ h ∈ hints, bodyOk h.body_markdown = true) :
    '\r' ∉ (writeTargetHintsText hints).data := by
  intro hmem
  obtain ⟨lc, hlc, hcr⟩ :=
    mem_splitNlChars_of_mem (writeTargetHintsText hints).data '\r' (by decide) hmem
  have hline : String.mk lc ∈ splitNl (writeTargetHintsText hints) := by
    simp only [splitNl, List.mem_map]
    exact ⟨lc, hlc, rfl⟩
  rw [splitNl_writeTargetHintsText, docLines] at hline
  have hcr' : '\r' ∈ (String.mk lc).data := by rw [data_string_mk]; exact hcr
  rcases List.mem_cons.mp hline with heq | hline
  · rw [heq] at hcr'
    exact absurd hcr' (by decide)
  · rcases List.mem_append.mp hline with hline | hline
    · rcases hle : hints.isEmpty with hv | hv
      · rw [hle] at hline
        simp only [Bool.false_eq_true, if_false] at hline
        rw [List.mem_flatten] at hline
        obtain ⟨ls, hls, hmem2⟩ := hline
        rw [List.mem_map] at hls
        obtain ⟨hh, hhmem, rfl⟩ := hls
        rw [entryLines] at hmem2
        rcases List.mem_cons.mp hmem2 with heq2 | hmem3
        · rw [heq2, titleLine_data] at hcr'
          rcases List.mem_append.mp hcr' with hx | hx
          · exact absurd hx (by decide)
          · exact cr_not_mem_jsonStringify hh.title_markdown hx
        · rcases List.mem_cons.mp hmem3 with heq3 | hmem4
          · rw [heq3] at hcr'
            exact absurd hcr' (by decide)
          · simp only [bodyLines, List.mem_map] at hmem4
            obtain ⟨x, hxmem, heq4⟩ := hmem4
            rw [← heq4, sixSpaces_data] at hcr'
            simp only [List.mem_cons] at hcr'
            rcases hcr' with h | h | h | h | h | h | h
            · exact absurd h (by decide)
            · exact absurd h (by decide)
            · exact absurd h (by decide)
            · exact absurd h (by decide)
            · exact absurd h (by decide)
            · exact absurd h (by decide)
            · have hbody := hok hh hhmem
              rw [bodyOk, Bool.and_eq_true] at hbody
              have hnc : '\r' ∉ hh.body_markdown.data := by
                have := hbody.1
                simp at this
                exact this
              exact hnc (mem_data_of_mem_splitNl hh.body_markdown x hxmem '\r' h)
      · rw [hle] at hline
        simp only [if_true] at hline
        rw [List.mem_singleton] at hline
        rw [hline] at hcr'
        exact absurd hcr' (by decide)
    · rw [List.mem_singleton] at hline
      rw [hline] at hcr'
      exact absurd hcr' (by decide)

/-- Round trip: writing a hint list with well-behaved bodies and reading
it back through the modelled YAML parser yields the same titles and the
chomped bodies. -/
theorem parseHintsDoc_writeTargetHintsText (hints : List Hint)
    (hok : ∀ h ∈ hints, bodyOk h.body_markdown = true) :
    parseHintsDoc (writeTargetHintsText hints)
      = some (hints.map (fun h =>
          { title_markdown := h.title_markdown,
            body_markdown := chompBody h.body_markdown })) := by
  cases hints with
  | nil => decide
  | cons x xs =>
    have hnocr := writeTargetHintsText_no_cr (x :: xs) hok
    unfold parseHintsDoc
    rw [normChars_id _ hnocr, string_mk_data, splitNl_writeTargetHintsText, docLines]
    simp only [List.isEmpty_cons, Bool.false_eq_true, if_false]
    show (if ("hints:" == "hints:") = true
      then parseEntries (((x :: xs).map entryLines).flatten ++ [""]) else none) = _
    rw [if_pos (by rfl), parseEntries]
    exact parseEntriesF_spec (x :: xs) [""] _ hok (by simp) (Nat.le_refl _)

/-! ## The file-discovery heuristic (src/io.ts lines 83-199)

The filesystem is modelled as a tree of named entries.  `readable :=
false` on a directory models an `fs.readdir` failure on it —
`safeReadDir` (src/io.ts lines 193-199) swallows the error and returns
`[]` — while `fs.stat`-based existence checks (`pathExists`) still see
the entry itself.  JavaScript's `localeCompare` tie-break is modelled as
code-point string order. -/

inductive FSEntry where
  | file (name : String) : FSEntry
  | dir (name : String) (readable : Bool) (children : List FSEntry) : FSEntry

def FSEntry.entryName : FSEntry → String
  | .file n => n
  | .dir n _ _ => n

def FSEntry.childrenOf : FSEntry → List FSEntry
  | .file _ => []
  | .dir _ _ cs => cs

def FSEntry.readableOf : FSEntry → Bool
  | .file _ => false
  | .dir _ r _ => r

mutual
def FSEntry.size : FSEntry → Nat
  | .file _ => 1
  | .dir _ _ cs => 1 + sizeList cs
def sizeList : List FSEntry → Nat
  | [] => 0
  | e :: es => FSEntry.size e + sizeList es
end

/-- `ROOTS` (src/io.ts line 83). -/
def ROOTS : List String := ["src", "lib", "app", "Sources"]

/-- `PREFERRED_NAMES` (src/io.ts lines 84-98). -/
def PREFERRED_NAMES : List String :=
  ["main", "Main", "index", "Index", "app", "App", "server", "Server",
   "core", "Core", "program", "Program", "Sources"]

/-- `prefRank` (src/io.ts lines 100-103).  `Number.POSITIVE_INFINITY` is
modelled as `PREFERRED_NAMES.length` (= 13): real ranks are at most 12,
so every comparison made by the sort comparators is preserved, and two
unknown names still tie, as `Infinity !== Infinity` is false. -/
def prefRank (basename : String) : Nat :=
  match PREFERRED_NAMES.indexOf? basename with
  | some i => i
  | none => PREFERRED_NAMES.length

/-- `path.join(dir, name)`, modelled as slash concatenation (the paths
built here never need normalization). -/
def joinPath (dir name : String) : String := dir ++ "/" ++ name

def strEndsWith (s suffix : String) : Bool := suffix.data.isSuffixOf s.data

/-- `path.basename(name, ext)` on a bare file name: strips `ext` when it
is a proper suffix (Node keeps the name unchanged when the whole name
equals the extension). -/
def basenameExt (name ext : String) : String :=
  if strEndsWith name ext && !(name == ext)
  then String.mk (name.data.take (name.data.length - ext.data.length))
  else name

structure Hit where
  fp : String
  depth : Nat
  rank : Nat
deriving DecidableEq

/-- Queue item of the breadth-first scans: directory path, whether
`readdir` succeeds there, its entries, and its depth.  A file occupying
a scanned path is an item whose `readdir` fails. -/
abbrev QItem := String × Bool × List FSEntry × Nat

def qItemOfEntry (p : String) (e : FSEntry) (depth : Nat) : QItem :=
  match e with
  | .file _ => (p, false, [], depth)
  | .dir _ r cs => (p, r, cs, depth)

/-- A hit recorded for a file entry ending in `ext`
(src/io.ts lines 140-143 and 174-177). -/
def fileHit (ext dirPath : String) (depth : Nat) : FSEntry → Option Hit
  | .file name =>
    if strEndsWith name ext then
      some { fp := joinPath dirPath name, depth := depth,
             rank := prefRank (basenameExt name ext) }
    else none
  | .dir _ _ _ => none

/-- The queue item pushed for a subdirectory entry
(src/io.ts lines 138-139 and 172-173). -/
def subItem (dirPath : String) (depth : Nat) : FSEntry → Option QItem
  | .dir name r cs => some (joinPath dirPath name, r, cs, depth + 1)
  | .file _ => none

def qMeasure : List QItem → Nat
  | [] => 0
  | (_, _, cs, _) :: rest => 1 + sizeList cs + qMeasure rest

/-- One breadth-first loop of `findMainFileRecursive` (src/io.ts lines
126-146 and 160-179), fueled for structural termination: pop the front
of the queue, skip it beyond `maxDepth`, otherwise read its entries (an
unreadable directory reads as empty), record every file ending in `ext`
at the current depth and enqueue every subdirectory at depth + 1.
`scanQueue` supplies fuel `qMeasure queue`, which strictly bounds the
number of pops, so the fuel never runs out (`scanFuel_congr`). -/
def scanFuel (ext : String) (maxDepth : Nat) : Nat → List QItem → List Hit
  | 0, _ => []
  | _ + 1, [] => []
  | fuel + 1, (dirPath, rble, children, depth) :: rest =>
    if depth > maxDepth then scanFuel ext maxDepth fuel rest
    else
      let entries := if rble then children else []
      entries.filterMap (fileHit ext dirPath depth)
        ++ scanFuel ext maxDepth fuel (rest ++ entries.filterMap (subItem dirPath depth))

def scanQueue (ext : String) (maxDepth : Nat) (queue : List QItem) : List Hit :=
  scanFuel ext maxDepth (qMeasure queue) queue

/-- `pathExists(path.join(baseDir, root))` over the modelled tree: the
first entry carrying the name. -/
def lookupName (entries : List FSEntry) (name : String) : Option FSEntry :=
  entries.find? (fun e => e.entryName == name)

/-- Phase-1 root loop (src/io.ts lines 122-147): scan the conventional
roots in order; the first root whose bounded scan yields any hit
supplies the hit list, and later roots are not scanned (the source
accumulates into one array and breaks on the first root that made it
nonempty, which is the same thing because earlier roots contributed
nothing). -/
def phase1Go (baseDir : String) (top : List FSEntry) (ext : String) : List String → List Hit
  | [] => []
  | r :: rs =>
    match lookupName top r with
    | none => phase1Go baseDir top ext rs
    | some e =>
      let hits := scanQueue ext 12 [qItemOfEntry (joinPath baseDir r) e 0]
      if hits.isEmpty then phase1Go baseDir top ext rs else hits

def phase1Hits (baseDir : String) (top : List FSEntry) (ext : String) : List Hit :=
  phase1Go baseDir top ext ROOTS

/-- Phase-1 comparator (src/io.ts lines 150-154) as a total order `a`
sorts no later than `b`: better name rank first, then shallower depth,
then lexicographic path. -/
def p1Le (a b : Hit) : Bool :=
  if a.rank ≠ b.rank then decide (a.rank < b.rank)
  else if a.depth ≠ b.depth then decide (a.depth < b.depth)
  else decide (a.fp ≤ b.fp)

/-- Phase-2 comparator (src/io.ts lines 184-188): deeper first, then
better name rank, then lexicographic path. -/
def p2Le (a b : Hit) : Bool :=
  if a.depth ≠ b.depth then decide (b.depth < a.depth)
  else if a.rank ≠ b.rank then decide (a.rank < b.rank)
  else decide (a.fp ≤ b.fp)

/-- `hits.sort(cmp)[0]`: the comparator-minimum of the list, keeping the
left-most among ties (tied hits compare equal in every component, so the
choice cannot change the returned path). -/
def minHit (le : Hit → Hit → Bool) : List Hit → Option Hit
  | [] => none
  | h :: t => some (t.foldl (fun a b => if le a b then a else b) h)

/-- `findMainFileRecursive` (src/io.ts lines 115-191) over a modelled
tree, where `fs` is the node at `baseDir`.  Phase 1 scans the
conventional roots (depth limit 12) and, when it collected any hit,
returns the phase-1 minimum (`sort(...)[0]`).  Otherwise phase 2 scans
the whole tree from `baseDir` (depth limit 20) and returns its phase-2
minimum, or `null` when it found nothing either. -/
def findMainFileRecursive (baseDir : String) (fs : FSEntry) (ext : String) : Option String :=
  match minHit p1Le (phase1Hits baseDir fs.childrenOf ext) with
  | some h => some h.fp
  | none =>
    (minHit p2Le (scanQueue ext 20 [qItemOfEntry baseDir fs 0])).map (fun h => h.fp)

/-! ## Order facts about the two comparators and the sort minimum -/

theorem p1Le_refl (a : Hit) : p1Le a a = true := by simp [p1Le]

theorem p2Le_refl (a : Hit) : p2Le a a = true := by simp [p2Le]

theorem p1Le_eq_cases (a b : Hit) :
    p1Le a b = (if a.rank ≠ b.rank then decide (a.rank < b.rank)
      else if a.depth ≠ b.depth then decide (a.depth < b.depth)
      else decide (a.fp ≤ b.fp)) := rfl

/-- `p1Le a b` as a lexicographic proposition. -/
theorem p1Le_iff (a b : Hit) : p1Le a b = true ↔
    (a.rank < b.rank ∨ (a.rank = b.rank ∧
      (a.depth < b.depth ∨ (a.depth = b.depth ∧ a.fp ≤ b.fp)))) := by
  rw [p1Le_eq_cases]
  by_cases h1 : a.rank = b.rank
  · by_cases h2 : a.depth = b.depth
    · rw [if_neg (by omega), if_neg (by omega)]
      simp only [decide_eq_true_eq]
      constructor
      · intro h
        exact Or.inr ⟨h1, Or.inr ⟨h2, h⟩⟩
      · rintro (h | ⟨-, h | ⟨-, h⟩⟩)
        · omega
        · omega
        · exact h
    · rw [if_neg (by omega), if_pos (by omega)]
      simp only [decide_eq_true_eq]
      constructor
      · intro h
        exact Or.inr ⟨h1, Or.inl h⟩
      · rintro (h | ⟨-, h | ⟨h, -⟩⟩)
        · omega
        · exact h
        · exact absurd h h2
  · rw [if_pos (by omega)]
    simp only [decide_eq_true_eq]
    constructor
    · intro h
      exact Or.inl h
    · rintro (h | ⟨h, -⟩)
      · exact h
      · exact absurd h h1

/-- `p2Le a b` as a lexicographic proposition (depth descending). -/
theorem p2Le_iff (a b : Hit) : p2Le a b = true ↔
    (b.depth < a.depth ∨ (a.depth = b.depth ∧
      (a.rank < b.rank ∨ (a.rank = b.rank ∧ a.fp ≤ b.fp)))) := by
  rw [show p2Le a b = (if a.depth ≠ b.depth then decide (b.depth < a.depth)
      else if a.rank ≠ b.rank then decide (a.rank < b.rank)
      else decide (a.fp ≤ b.fp)) from rfl]
  by_cases h1 : a.depth = b.depth
  · by_cases h2 : a.rank = b.rank
    · rw [if_neg (by omega), if_neg (by omega)]
      simp only [decide_eq_true_eq]
      constructor
      · intro h
        exact Or.inr ⟨h1, Or.inr ⟨h2, h⟩⟩
      · rintro (h | ⟨-, h | ⟨-, h⟩⟩)
        · omega
        · omega
        · exact h
    · rw [if_neg (by omega), if_pos (by omega)]
      simp only [decide_eq_true_eq]
      constructor
      · intro h
        exact Or.inr ⟨h1, Or.inl h⟩
      · rintro (h | ⟨-, h | ⟨h, -⟩⟩)
        · omega
        · exact h
        · exact absurd h h2
  · rw [if_pos (by omega)]
    simp only [decide_eq_true_eq]
    constructor
    · intro h
      exact Or.inl h
    · rintro (h | ⟨h, -⟩)
      · exact h
      · exact absurd h h1

theorem p1Le_total (a b : Hit) : p1Le a b = true ∨ p1Le b a = true := by
  rw [p1Le_iff, p1Le_iff]
  rcases Nat.lt_trichotomy a.rank b.rank with h | h | h
  · exact Or.inl (Or.inl h)
  · rcases Nat.lt_trichotomy a.depth b.depth with h2 | h2 | h2
    · exact Or.inl (Or.inr ⟨h, Or.inl h2⟩)
    · rcases le_total a.fp b.fp with h3 | h3
      · exact Or.inl (Or.inr ⟨h, Or.inr ⟨h2, h3⟩⟩)
      · exact Or.inr (Or.inr ⟨h.symm, Or.inr ⟨h2.symm, h3⟩⟩)
    · exact Or.inr (Or.inr ⟨h.symm, Or.inl h2⟩)
  · exact Or.inr (Or.inl h)

theorem p2Le_total (a b : Hit) : p2Le a b = true ∨ p2Le b a = true := by
  rw [p2Le_iff, p2Le_iff]
  rcases Nat.lt_trichotomy a.depth b.depth with h | h | h
  · exact Or.inr (Or.inl h)
  · rcases Nat.lt_trichotomy a.rank b.rank with h2 | h2 | h2
    · exact Or.inl (Or.inr ⟨h, Or.inl h2⟩)
    · rcases le_total a.fp b.fp with h3 | h3
      · exact Or.inl (Or.inr ⟨h, Or.inr ⟨h2, h3⟩⟩)
      · exact Or.inr (Or.inr ⟨h.symm, Or.inr ⟨h2.symm, h3⟩⟩)
    · exact Or.inr (Or.inr ⟨h.symm, Or.inl h2⟩)
  · exact Or.inl (Or.inl h)

theorem p1Le_trans (a b c : Hit) (h1 : p1Le a b = true) (h2 : p1Le b c = true) :
    p1Le a c = true := by
  rw [p1Le_iff] at h1 h2 ⊢
  rcases h1 with h1 | ⟨hr1, h1⟩
  · rcases h2 with h2 | ⟨hr2, -⟩
    · exact Or.inl (by omega)
    · exact Or.inl (by omega)
  · rcases h2 with h2 | ⟨hr2, h2⟩
    · exact Or.inl (by omega)
    · refine Or.inr ⟨hr1.trans hr2, ?_⟩
      rcases h1 with h1 | ⟨hd1, h1⟩
      · rcases h2 with h2 | ⟨hd2, -⟩
        · exact Or.inl (by omega)
        · exact Or.inl (by omega)
      · rcases h2 with h2 | ⟨hd2, h2⟩
        · exact Or.inl (by omega)
        · exact Or.inr ⟨hd1.trans hd2, h1.trans h2⟩

theorem p2Le_trans (a b c : Hit) (h1 : p2Le a b = true) (h2 : p2Le b c = true) :
    p2Le a c = true := by
  rw [p2Le_iff] at h1 h2 ⊢
  rcases h1 with h1 | ⟨hd1, h1⟩
  · rcases h2 with h2 | ⟨hd2, -⟩
    · exact Or.inl (by omega)
    · exact Or.inl (by omega)
  · rcases h2 with h2 | ⟨hd2, h2⟩
    · exact Or.inl (by omega)
    · refine Or.inr ⟨hd1.trans hd2, ?_⟩
      rcases h1 with h1 | ⟨hr1, h1⟩
      · rcases h2 with h2 | ⟨hr2, -⟩
        · exact Or.inl (by omega)
        · exact Or.inl (by omega)
      · rcases h2 with h2 | ⟨hr2, h2⟩
        · exact Or.inl (by omega)
        · exact Or.inr ⟨hr1.trans hr2, h1.trans h2⟩

theorem foldl_min_spec (le : Hit → Hit → Bool)
    (hrefl : ∀ a, le a a = true)
    (htot : ∀ a b, le a b = true ∨ le b a = true)
    (htrans : ∀ a b c, le a b = true → le b c = true → le a c = true) :
    ∀ (t : List Hit) (acc : Hit),
      (t.foldl (fun a b => if le a b then a else b) acc ∈ acc :: t)
      ∧ le (t.foldl (fun a b => if le a b then a else b) acc) acc = true
      ∧ ∀ x ∈ t, le (t.foldl (fun a b => if le a b then a else b) acc) x = true := by
  intro t
  induction t with
  | nil =>
    intro acc
    exact ⟨List.mem_cons_self _ _, hrefl acc, by simp⟩
  | cons b t ih =>
    intro acc
    simp only [List.foldl_cons]
    by_cases hab : le acc b = true
    · rw [if_pos hab]
      obtain ⟨hmem, hacc, hall⟩ := ih acc
      refine ⟨?_, hacc, ?_⟩
      · rcases List.mem_cons.mp hmem with h | h
        · rw [h]
          exact List.mem_cons_self _ _
        · exact List.mem_cons_of_mem _ (List.mem_cons_of_mem _ h)
      · intro x hx
        rcases List.mem_cons.mp hx with h | hx2
        · rw [h]
          exact htrans _ _ _ hacc hab
        · exact hall x hx2
    · rw [if_neg hab]
      obtain ⟨hmem, hb, hall⟩ := ih b
      have hba : le b acc = true := (htot acc b).resolve_left hab
      refine ⟨?_, htrans _ _ _ hb hba, ?_⟩
      · rcases List.mem_cons.mp hmem with h | h
        · rw [h]
          exact List.mem_cons_of_mem _ (List.mem_cons_self _ _)
        · exact List.mem_cons_of_mem _ (List.mem_cons_of_mem _ h)
      · intro x hx
        rcases List.mem_cons.mp hx with h | hx2
        · rw [h]
          exact hb
        · exact hall x hx2

/-- `sort(cmp)[0]` is a member of the list and a minimum of the
comparator. -/
theorem minHit_mem_min (le : Hit → Hit → Bool)
    (hrefl : ∀ a, le a a = true)
    (htot : ∀ a b, le a b = true ∨ le b a = true)
    (htrans : ∀ a b c, le a b = true → le b c = true → le a c = true)
    (l : List Hit) (m : Hit) (hm : minHit le l = some m) :
    m ∈ l ∧ ∀ x ∈ l, le m x = true := by
  cases l with
  | nil => simp [minHit] at hm
  | cons h t =>
    simp only [minHit, Option.some.injEq] at hm
    obtain ⟨hmem, hacc, hall⟩ := foldl_min_spec le hrefl htot htrans t h
    rw [hm] at hmem hacc hall
    refine ⟨hmem, ?_⟩
    intro x hx
    rcases List.mem_cons.mp hx with hh | hx2
    · rw [hh]
      exact hacc
    · exact hall x hx2

theorem minHit_eq_none_iff (le : Hit → Hit → Bool) (l : List Hit) :
    minHit le l = none ↔ l = [] := by
  cases l <;> simp [minHit]

/-! ## Structure of the phase-1 root loop -/

/-- The hits the phase-1 scan collects under one conventional root
(empty when the root does not exist). -/
def rootScan (baseDir : String) (top : List FSEntry) (ext : String) (r : String) : List Hit :=
  match lookupName top r with
  | none => []
  | some e => scanQueue ext 12 [qItemOfEntry (joinPath baseDir r) e 0]

theorem phase1Go_cons (baseDir : String) (top : List FSEntry) (ext r : String)
    (rs : List String) :
    phase1Go baseDir top ext (r :: rs)
      = if (rootScan baseDir top ext r).isEmpty then phase1Go baseDir top ext rs
        else rootScan baseDir top ext r := by
  rw [phase1Go]
  cases h : lookupName top r with
  | none => simp [rootScan, h]
  | some e => simp [rootScan, h]

/-- The phase-1 hit list is the scan of the first root whose scan is
nonempty. -/
theorem phase1Hits_first (baseDir : String) (top : List FSEntry) (ext : String)
    (k : Nat) (hk : k < ROOTS.length)
    (hprev : ∀ j (hj : j < ROOTS.length), j < k →
      rootScan baseDir top ext (ROOTS.get ⟨j, hj⟩) = [])
    (hcur : rootScan baseDir top ext (ROOTS.get ⟨k, hk⟩) ≠ []) :
    phase1Hits baseDir top ext = rootScan baseDir top ext (ROOTS.get ⟨k, hk⟩) := by
  have hlen : ROOTS.length = 4 := rfl
  rw [hlen] at hk
  interval_cases k
  · have hcur' : rootScan baseDir top ext "src" ≠ [] := hcur
    show phase1Go baseDir top ext ("src" :: "lib" :: "app" :: "Sources" :: []) = _
    rw [phase1Go_cons, if_neg (by simpa [List.isEmpty_iff] using hcur')]
    rfl
  · have hcur' : rootScan baseDir top ext "lib" ≠ [] := hcur
    have h0 : rootScan baseDir top ext "src" = [] := hprev 0 (by decide) (by omega)
    show phase1Go baseDir top ext ("src" :: "lib" :: "app" :: "Sources" :: []) = _
    rw [phase1Go_cons, if_pos (by simp [List.isEmpty_iff, h0]),
      phase1Go_cons, if_neg (by simpa [List.isEmpty_iff] using hcur')]
    rfl
  · have hcur' : rootScan baseDir top ext "app" ≠ [] := hcur
    have h0 : rootScan baseDir top ext "src" = [] := hprev 0 (by decide) (by omega)
    have h1 : rootScan baseDir top ext "lib" = [] := hprev 1 (by decide) (by omega)
    show phase1Go baseDir top ext ("src" :: "lib" :: "app" :: "Sources" :: []) = _
    rw [phase1Go_cons, if_pos (by simp [List.isEmpty_iff, h0]),
      phase1Go_cons, if_pos (by simp [List.isEmpty_iff, h1]),
      phase1Go_cons, if_neg (by simpa [List.isEmpty_iff] using hcur')]
    rfl
  · have hcur' : rootScan baseDir top ext "Sources" ≠ [] := hcur
    have h0 : rootScan baseDir top ext "src" = [] := hprev 0 (by decide) (by omega)
    have h1 : rootScan baseDir top ext "lib" = [] := hprev 1 (by decide) (by omega)
    have h2 : rootScan baseDir top ext "app" = [] := hprev 2 (by decide) (by omega)
    show phase1Go baseDir top ext ("src" :: "lib" :: "app" :: "Sources" :: []) = _
    rw [phase1Go_cons, if_pos (by simp [List.isEmpty_iff, h0]),
      phase1Go_cons, if_pos (by simp [List.isEmpty_iff, h1]),
      phase1Go_cons, if_pos (by simp [List.isEmpty_iff, h2]),
      phase1Go_cons, if_neg (by simpa [List.isEmpty_iff] using hcur')]
    rfl

theorem phase1Go_nil_iff (baseDir : String) (top : List FSEntry) (ext : String)
    (roots : List String) :
    phase1Go baseDir top ext roots = [] ↔ ∀ r ∈ roots, rootScan baseDir top ext r = [] := by
  induction roots with
  | nil => simp [phase1Go]
  | cons r rs ih =>
    rw [phase1Go_cons]
    by_cases h : (rootScan baseDir top ext r).isEmpty
    · have h' := List.isEmpty_iff.mp h
      rw [if_pos h, ih]
      simp [h']
    · have h' : rootScan baseDir top ext r ≠ [] := by simpa [List.isEmpty_iff] using h
      rw [if_neg h]
      constructor
      · intro he
        exact absurd he h'
      · intro hall
        exact absurd (hall r (List.mem_cons_self r rs)) h'

/-- Phase 1 found nothing exactly when every root's scan is empty. -/
theorem phase1Hits_empty_iff (baseDir : String) (top : List FSEntry) (ext : String) :
    phase1Hits baseDir top ext = [] ↔
      ∀ r ∈ ROOTS, rootScan baseDir top ext r = [] :=
  phase1Go_nil_iff baseDir top ext ROOTS

/-! ## Termination and error-swallowing of the scans -/

theorem scanFuel_nil (ext : String) (maxDepth f : Nat) : scanFuel ext maxDepth f [] = [] := by
  cases f <;> rfl

theorem qMeasure_append (A B : List QItem) : qMeasure (A ++ B) = qMeasure A + qMeasure B := by
  induction A with
  | nil => simp [qMeasure]
  | cons a t ih =>
    obtain ⟨p, r, cs, d⟩ := a
    simp [qMeasure, ih]
    omega

theorem qMeasure_subItems (p : String) (d : Nat) (cs : List FSEntry) :
    qMeasure (cs.filterMap (subItem p d)) ≤ sizeList cs := by
  induction cs with
  | nil => simp [qMeasure]
  | cons e es ih =>
    cases e with
    | file n =>
      rw [List.filterMap_cons_none (by rfl)]
      have : sizeList (FSEntry.file n :: es) = 1 + sizeList es := rfl
      omega
    | dir n r cs' =>
      rw [List.filterMap_cons_some (by rfl)]
      have h1 : qMeasure ((joinPath p n, r, cs', d + 1) :: es.filterMap (subItem p d))
          = 1 + sizeList cs' + qMeasure (es.filterMap (subItem p d)) := rfl
      have h2 : sizeList (FSEntry.dir n r cs' :: es) = (1 + sizeList cs') + sizeList es := rfl
      omega

/-- The fuel is irrelevant once it reaches the queue measure: the
breadth-first loop of the source, which has no fuel, terminates and
computes `scanQueue`. -/
theorem scanFuel_congr (ext : String) (maxDepth : Nat) :
    ∀ (f g : Nat) (q : List QItem), qMeasure q ≤ f → qMeasure q ≤ g →
      scanFuel ext maxDepth f q = scanFuel ext maxDepth g q := by
  intro f
  induction f with
  | zero =>
    intro g q hf _
    cases q with
    | nil => rw [scanFuel_nil, scanFuel_nil]
    | cons a t =>
      obtain ⟨p, r, cs, d⟩ := a
      have : qMeasure ((p, r, cs, d) :: t) = 1 + sizeList cs + qMeasure t := rfl
      omega
  | succ f ih =>
    intro g q hf hg
    cases q with
    | nil => rw [scanFuel_nil, scanFuel_nil]
    | cons a t =>
      obtain ⟨p, r, cs, d⟩ := a
      have hm : qMeasure ((p, r, cs, d) :: t) = 1 + sizeList cs + qMeasure t := rfl
      cases g with
      | zero => omega
      | succ g' =>
        show (if d > maxDepth then scanFuel ext maxDepth f t
            else (if r then cs else []).filterMap (fileHit ext p d)
              ++ scanFuel ext maxDepth f
                  (t ++ (if r then cs else []).filterMap (subItem p d)))
          = (if d > maxDepth then scanFuel ext maxDepth g' t
            else (if r then cs else []).filterMap (fileHit ext p d)
              ++ scanFuel ext maxDepth g'
                  (t ++ (if r then cs else []).filterMap (subItem p d)))
        by_cases hd : d > maxDepth
        · rw [if_pos hd, if_pos hd, ih g' t (by omega) (by omega)]
        · rw [if_neg hd, if_neg hd]
          congr 1
          have hsub : qMeasure ((if r then cs else []).filterMap (subItem p d))
              ≤ sizeList cs := by
            by_cases hr : r
            · rw [if_pos hr]
              exact qMeasure_subItems p d cs
            · rw [if_neg hr]
              simp [qMeasure]
          have hq : qMeasure (t ++ (if r then cs else []).filterMap (subItem p d))
              = qMeasure t + qMeasure ((if r then cs else []).filterMap (subItem p d)) :=
            qMeasure_append _ _
          exact ih g' _ (by omega) (by omega)

/-! ### Unreadable directories behave as empty directories -/

mutual
/-- Replace every directory whose `readdir` fails by a readable empty
directory with the same name. -/
def sanitizeEntry : FSEntry → FSEntry
  | .file n => .file n
  | .dir n r cs => if r then .dir n true (sanitizeList cs) else .dir n true []
def sanitizeList : List FSEntry → List FSEntry
  | [] => []
  | e :: es => sanitizeEntry e :: sanitizeList es
end

def qSanItem : QItem → QItem
  | (p, r, cs, d) => (p, true, if r then sanitizeList cs else [], d)

theorem entryName_sanitize (e : FSEntry) : (sanitizeEntry e).entryName = e.entryName := by
  cases e with
  | file n => rfl
  | dir n r cs =>
    rw [sanitizeEntry]
    by_cases hr : r <;> simp [hr, FSEntry.entryName]

theorem fileHit_sanitize (ext p : String) (d : Nat) (es : List FSEntry) :
    (sanitizeList es).filterMap (fileHit ext p d) = es.filterMap (fileHit ext p d) := by
  induction es with
  | nil => rfl
  | cons e t ih =>
    cases e with
    | file n =>
      show List.filterMap _ (FSEntry.file n :: sanitizeList t) = _
      rw [List.filterMap_cons, List.filterMap_cons, ih]
    | dir n r cs =>
      show List.filterMap _ (sanitizeEntry (.dir n r cs) :: sanitizeList t) = _
      rw [sanitizeEntry]
      by_cases hr : r
      · rw [if_pos hr, List.filterMap_cons_none (by rfl),
          List.filterMap_cons_none (by rfl), ih]
      · rw [if_neg hr, List.filterMap_cons_none (by rfl),
          List.filterMap_cons_none (by rfl), ih]

theorem subItem_sanitize (p : String) (d : Nat) (es : List FSEntry) :
    (sanitizeList es).filterMap (subItem p d) = (es.filterMap (subItem p d)).map qSanItem := by
  induction es with
  | nil => rfl
  | cons e t ih =>
    cases e with
    | file n =>
      show List.filterMap _ (FSEntry.file n :: sanitizeList t) = _
      rw [List.filterMap_cons_none (by rfl), List.filterMap_cons_none (by rfl), ih]
    | dir n r cs =>
      show List.filterMap _ (sanitizeEntry (.dir n r cs) :: sanitizeList t) = _
      rw [sanitizeEntry]
      by_cases hr : r
      · rw [if_pos hr, List.filterMap_cons_some (by rfl), List.filterMap_cons_some (by rfl),
          List.map_cons, ih]
        show ((joinPath p n, true, sanitizeList cs, d + 1) : QItem) :: _
            = qSanItem (joinPath p n, r, cs, d + 1) :: _
        rw [qSanItem]
        simp [hr]
      · rw [if_neg hr, List.filterMap_cons_some (by rfl), List.filterMap_cons_some (by rfl),
          List.map_cons, ih]
        show ((joinPath p n, true, [], d + 1) : QItem) :: _
            = qSanItem (joinPath p n, r, cs, d + 1) :: _
        rw [qSanItem]
        simp [hr]

/-- With equal fuel, the scan does not distinguish an unreadable
directory from a readable empty one. -/
theorem scanFuel_sanitize (ext : String) (maxDepth : Nat) :
    ∀ (f : Nat) (q : List QItem),
      scanFuel ext maxDepth f (q.map qSanItem) = scanFuel ext maxDepth f q := by
  intro f
  induction f with
  | zero => intro q; rfl
  | succ f ih =>
    intro q
    cases q with
    | nil => rfl
    | cons a t =>
      obtain ⟨p, r, cs, d⟩ := a
      cases r with
      | true =>
        show (if d > maxDepth then scanFuel ext maxDepth f (t.map qSanItem)
            else (sanitizeList cs).filterMap (fileHit ext p d)
              ++ scanFuel ext maxDepth f
                  (t.map qSanItem ++ (sanitizeList cs).filterMap (subItem p d)))
          = (if d > maxDepth then scanFuel ext maxDepth f t
            else cs.filterMap (fileHit ext p d)
              ++ scanFuel ext maxDepth f (t ++ cs.filterMap (subItem p d)))
        by_cases hd : d > maxDepth
        · rw [if_pos hd, if_pos hd, ih t]
        · rw [if_neg hd, if_neg hd, fileHit_sanitize, subItem_sanitize]
          congr 1
          rw [← List.map_append, ih]
      | false =>
        show (if d > maxDepth then scanFuel ext maxDepth f (t.map qSanItem)
            else ([] : List FSEntry).filterMap (fileHit ext p d)
              ++ scanFuel ext maxDepth f
                  (t.map qSanItem ++ ([] : List FSEntry).filterMap (subItem p d)))
          = (if d > maxDepth then scanFuel ext maxDepth f t
            else ([] : List FSEntry).filterMap (fileHit ext p d)
              ++ scanFuel ext maxDepth f (t ++ ([] : List FSEntry).filterMap (subItem p d)))
        by_cases hd : d > maxDepth
        · rw [if_pos hd, if_pos hd, ih t]
        · rw [if_neg hd, if_neg hd]
          simp only [List.filterMap_nil, List.append_nil, List.nil_append]
          exact ih t

mutual
theorem size_sanitizeEntry_le : ∀ e : FSEntry, (sanitizeEntry e).size ≤ e.size
  | .file _ => Nat.le_refl _
  | .dir n r cs => by
    rw [sanitizeEntry]
    by_cases hr : r
    · rw [if_pos hr]
      have h := sizeList_sanitizeList_le cs
      show 1 + sizeList (sanitizeList cs) ≤ 1 + sizeList cs
      omega
    · rw [if_neg hr]
      show 1 + sizeList ([] : List FSEntry) ≤ 1 + sizeList cs
      show 1 + 0 ≤ 1 + sizeList cs
      omega
theorem sizeList_sanitizeList_le : ∀ es : List FSEntry, sizeList (sanitizeList es) ≤ sizeList es
  | [] => Nat.le_refl _
  | e :: t => by
    show (sanitizeEntry e).size + sizeList (sanitizeList t) ≤ e.size + sizeList t
    have h1 := size_sanitizeEntry_le e
    have h2 := sizeList_sanitizeList_le t
    omega
end

theorem qMeasure_qSan_le (q : List QItem) : qMeasure (q.map qSanItem) ≤ qMeasure q := by
  induction q with
  | nil => exact Nat.le_refl _
  | cons a t ih =>
    obtain ⟨p, r, cs, d⟩ := a
    show qMeasure ((p, true, if r then sanitizeList cs else [], d) :: t.map qSanItem)
        ≤ qMeasure ((p, r, cs, d) :: t)
    show 1 + sizeList (if r then sanitizeList cs else []) + qMeasure (t.map qSanItem)
        ≤ 1 + sizeList cs + qMeasure t
    by_cases hr : r
    · rw [if_pos hr]
      have := sizeList_sanitizeList_le cs
      omega
    · rw [if_neg hr]
      show 1 + 0 + _ ≤ _
      omega

theorem scanQueue_sanitize (ext : String) (maxDepth : Nat) (q : List QItem) :
    scanQueue ext maxDepth (q.map qSanItem) = scanQueue ext maxDepth q := by
  rw [scanQueue, scanQueue]
  rw [scanFuel_congr ext maxDepth (qMeasure (q.map qSanItem)) (qMeasure q) (q.map qSanItem)
    (Nat.le_refl _) (qMeasure_qSan_le q)]
  exact scanFuel_sanitize ext maxDepth (qMeasure q) q

theorem scanQueue_entry_sanitize (ext : String) (maxDepth : Nat) (p : String)
    (e : FSEntry) (d : Nat) :
    scanQueue ext maxDepth [qItemOfEntry p (sanitizeEntry e) d]
      = scanQueue ext maxDepth [qItemOfEntry p e d] := by
  cases e with
  | file n => rfl
  | dir n r cs =>
    cases r with
    | true =>
      show scanQueue ext maxDepth [(p, true, sanitizeList cs, d)]
          = scanQueue ext maxDepth [(p, true, cs, d)]
      have := scanQueue_sanitize ext maxDepth [(p, true, cs, d)]
      exact this
    | false =>
      show scanQueue ext maxDepth [(p, true, [], d)]
          = scanQueue ext maxDepth [(p, false, cs, d)]
      have := scanQueue_sanitize ext maxDepth [(p, false, cs, d)]
      exact this

theorem lookupName_sanitize (cs : List FSEntry) (name : String) :
    lookupName (sanitizeList cs) name = (lookupName cs name).map sanitizeEntry := by
  induction cs with
  | nil => rfl
  | cons e t ih =>
    show List.find? (fun x => x.entryName == name) (sanitizeEntry e :: sanitizeList t)
        = Option.map sanitizeEntry (List.find? (fun x => x.entryName == name) (e :: t))
    rw [List.find?_cons, List.find?_cons, entryName_sanitize]
    cases h : (e.entryName == name) with
    | true => rfl
    | false => exact ih

theorem rootScan_sanitize (baseDir : String) (top : List FSEntry) (ext r : String) :
    rootScan baseDir (sanitizeList top) ext r = rootScan baseDir top ext r := by
  rw [rootScan, rootScan, lookupName_sanitize]
  cases lookupName top r with
  | none => rfl
  | some e =>
    show scanQueue ext 12 [qItemOfEntry (joinPath baseDir r) (sanitizeEntry e) 0] = _
    exact scanQueue_entry_sanitize ext 12 _ e 0

theorem phase1Go_sanitize (baseDir : String) (top : List FSEntry) (ext : String)
    (roots : List String) :
    phase1Go baseDir (sanitizeList top) ext roots = phase1Go baseDir top ext roots := by
  induction roots with
  | nil => rfl
  | cons r rs ih =>
    rw [phase1Go_cons, phase1Go_cons, rootScan_sanitize, ih]

/-- `findMainFileRecursive` does not distinguish an unreadable directory
anywhere below the base from a readable empty one: a failed
per-directory read is "no entries here". -/
theorem findMainFileRecursive_sanitize (baseDir n : String) (r : Bool)
    (cs : List FSEntry) (ext : String) :
    findMainFileRecursive baseDir (.dir n r (sanitizeList cs)) ext
      = findMainFileRecursive baseDir (.dir n r cs) ext := by
  rw [findMainFileRecursive, findMainFileRecursive]
  have h1 : phase1Hits baseDir (FSEntry.dir n r (sanitizeList cs)).childrenOf ext
      = phase1Hits baseDir (FSEntry.dir n r cs).childrenOf ext := by
    show phase1Go baseDir (sanitizeList cs) ext ROOTS = phase1Go baseDir cs ext ROOTS
    exact phase1Go_sanitize baseDir cs ext ROOTS
  have h2 : scanQueue ext 20 [qItemOfEntry baseDir (FSEntry.dir n r (sanitizeList cs)) 0]
      = scanQueue ext 20 [qItemOfEntry baseDir (FSEntry.dir n r cs) 0] := by
    cases r with
    | true =>
      show scanQueue ext 20 [(baseDir, true, sanitizeList cs, 0)]
          = scanQueue ext 20 [(baseDir, true, cs, 0)]
      exact scanQueue_sanitize ext 20 [(baseDir, true, cs, 0)]
    | false =>
      show scanQueue ext 20 [(baseDir, false, sanitizeList cs, 0)]
          = scanQueue ext 20 [(baseDir, false, cs, 0)]
      have ha : scanQueue ext 20 [(baseDir, false, sanitizeList cs, 0)] = [] := by
        rw [show scanQueue ext 20 [((baseDir : String), false, sanitizeList cs, (0 : Nat))]
            = scanFuel ext 20 (1 + sizeList (sanitizeList cs) + 0)
                [(baseDir, false, sanitizeList cs, 0)] from rfl]
        rw [show 1 + sizeList (sanitizeList cs) + 0 = sizeList (sanitizeList cs) + 1 by omega]
        show ([] : List FSEntry).filterMap (fileHit ext baseDir 0)
            ++ scanFuel ext 20 (sizeList (sanitizeList cs))
                ([] ++ ([] : List FSEntry).filterMap (subItem baseDir 0)) = []
        simp [scanFuel_nil]
      have hb : scanQueue ext 20 [(baseDir, false, cs, 0)] = [] := by
        rw [show scanQueue ext 20 [((baseDir : String), false, cs, (0 : Nat))]
            = scanFuel ext 20 (1 + sizeList cs + 0) [(baseDir, false, cs, 0)] from rfl]
        rw [show 1 + sizeList cs + 0 = sizeList cs + 1 by omega]
        show ([] : List FSEntry).filterMap (fileHit ext baseDir 0)
            ++ scanFuel ext 20 (sizeList cs)
                ([] ++ ([] : List FSEntry).filterMap (subItem baseDir 0)) = []
        simp [scanFuel_nil]
      rw [ha, hb]
  rw [h1, h2]

/-! ## Effect traces of the writer functions (src/io.ts lines 28-42 and 201-314) -/

/-- A filesystem mutation performed by the writer functions. -/
inductive FsEffect where
  | rmrf (p : String) : FsEffect
  | mkdirp (p : String) : FsEffect
  | copyDir (src dst : String) : FsEffect
  | writeFile (p : String) (content : String) : FsEffect
deriving DecidableEq

def FsEffect.isWrite : FsEffect → Bool
  | .writeFile _ _ => true
  | _ => false

/-- `path.dirname`: everything before the last slash (adequate for the
joined paths built here, which always contain slashes). -/
def dirname (p : String) : String :=
  match p.data.reverse.dropWhile (fun c => c ≠ '/') with
  | [] => "."
  | _ :: rest => String.mk rest.reverse

/-- `langExt` (src/io.ts lines 28-42). -/
def langExt (lang : String) : String :=
  if lang == "clojure" then ".clj"
  else if lang == "crystal" then ".cr"
  else if lang == "elixir" then ".ex"
  else if lang == "haskell" then ".hs"
  else if lang == "javascript" then ".js"
  else if lang == "kotlin" then ".kt"
  else if lang == "ocaml" then ".ml"
  else if lang == "python" then ".py"
  else if lang == "ruby" then ".rb"
  else if lang == "rust" then ".rs"
  else if lang == "typescript" then ".ts"
  else if lang == "csharp" then ".cs"
  else "." ++ lang

/-- `challengeDir` (src/io.ts lines 6-8). -/
def challengeDir (projectRoot slug : String) : String :=
  joinPath (joinPath projectRoot "challenges") slug

def starterDir (projectRoot slug language : String) : String :=
  joinPath (joinPath (challengeDir projectRoot slug) "compiled_starters") language

def solutionCodeDir (projectRoot slug language stageId : String) : String :=
  joinPath (joinPath (joinPath (joinPath (challengeDir projectRoot slug) "solutions")
    language) stageId) "code"

def hintsCfgPath (projectRoot slug language stageId : String) : String :=
  joinPath (joinPath (joinPath (joinPath (challengeDir projectRoot slug) "solutions")
    language) stageId) "config.yml"

/-- `prepareSolutionCodeDir` (src/io.ts lines 206-236), as its result
paired with the trace of filesystem mutations it performs, in order.
`starterExists` abstracts `pathExists(srcDir)`.  The existence check
precedes every mutation, so a missing starter template aborts with an
empty trace; otherwise the destination is wiped (`rmrf`), its parent
ensured and the starter recursively copied. -/
def prepareSolutionCodeDir (starterExists : Bool)
    (projectRoot slug language stageId : String) :
    Except String String × List FsEffect :=
  let srcDir := starterDir projectRoot slug language
  let dstDir := solutionCodeDir projectRoot slug language stageId
  if !starterExists then
    (.error ("compiled_starters/" ++ language ++ " not found at " ++ srcDir), [])
  else
    (.ok dstDir, [.rmrf dstDir, .mkdirp (dirname dstDir), .copyDir srcDir dstDir])

/-- `writeSolutionOverStarter` (src/io.ts lines 244-274) as its result
paired with its effect trace.  `mainFound` abstracts the outcome of
`findMainFileRecursive(codeDir, ext)` on the directory state after the
starter copy.  The `dryRun` flag guards only the final `writeFile`; the
starter existence check, the wipe-and-recopy, and the fallback
`ensureDir` all execute regardless of it. -/
def writeSolutionOverStarter (starterExists : Bool) (mainFound : Option String)
    (projectRoot slug language stageId solutionCode : String) (dryRun : Bool) :
    Except String String × List FsEffect :=
  match prepareSolutionCodeDir starterExists projectRoot slug language stageId with
  | (.error e, eff) => (.error e, eff)
  | (.ok codeDir, eff) =>
    let ext := langExt language
    match mainFound with
    | some p =>
      if !dryRun then (.ok p, eff ++ [.writeFile p solutionCode])
      else (.ok p, eff)
    | none =>
      let fallback := joinPath (joinPath codeDir "src") ("main" ++ ext)
      let eff2 := eff ++ [.mkdirp (dirname fallback)]
      if !dryRun then (.ok fallback, eff2 ++ [.writeFile fallback solutionCode])
      else (.ok fallback, eff2)

/-- The effect trace of `writeTargetHints` (src/io.ts lines 276-314):
with `dry` set it only logs; otherwise it ensures the config directory
and writes the serialized hints text. -/
def writeTargetHintsEffects (projectRoot slug language stageId : String)
    (hints : List Hint) (dry : Bool) : List FsEffect :=
  let cfgPath := hintsCfgPath projectRoot slug language stageId
  if dry then []
  else [.mkdirp (dirname cfgPath), .writeFile cfgPath (writeTargetHintsText hints)]

/-! ## The bounded task runner `runPool` (src/index.ts lines 39-61)

The pool is embedded as a small-step transition system.  Each of the
`Math.min(limit, tasks.length)` workers loops: it atomically claims the
shared counter (`const i = next++` and the bounds test are synchronous
JavaScript, hence one step) and either returns (claim past the end) or
computes task `i`; the `await` before `results[i] = ...` is the
interleaving point, after which the worker writes the slot and loops, or
rejects if the task rejected.  Task `i`'s settlement is
`tasks[i] : Except ε τ`.  Any interleaving of a run is a `PoolStep`
sequence; `runPool` resolving with an array is a reachable state whose
workers have all returned. -/

inductive WorkerState (ε : Type) where
  | claiming : WorkerState ε
  | computing (i : Nat) : WorkerState ε
  | returned : WorkerState ε
  | failed (i : Nat) (e : ε) : WorkerState ε

def WorkerState.isIdle {ε : Type} : WorkerState ε → Bool
  | .returned => true
  | .failed _ _ => true
  | _ => false

structure PoolState (ε τ : Type) where
  next : Nat
  results : List (Option τ)
  workers : List (WorkerState ε)

/-- `if (limit < 1) limit = 1` (src/index.ts line 43). -/
def clampLimit (limit : Int) : Int := if limit < 1 then 1 else limit

/-- `Math.min(limit, tasks.length)` workers are spawned
(src/index.ts lines 56-58). -/
def workerCount (limit : Int) (n : Nat) : Nat := min (clampLimit limit).toNat n

/-- The pool state at the start of `runPool`: empty results array of the
tasks' length, shared counter at zero, every worker about to claim. -/
def initPool {ε τ : Type} (limit : Int) (n : Nat) : PoolState ε τ :=
  { next := 0, results := List.replicate n none,
    workers := List.replicate (workerCount limit n) .claiming }

inductive PoolStep {ε τ : Type} (tasks : List (Except ε τ)) :
    PoolState ε τ → PoolState ε τ → Prop
  | claimHalt (s : PoolState ε τ) (w : Nat) :
      s.workers[w]? = some .claiming →
      tasks.length ≤ s.next →
      PoolStep tasks s
        { s with next := s.next + 1, workers := s.workers.set w .returned }
  | claimGo (s : PoolState ε τ) (w : Nat) :
      s.workers[w]? = some .claiming →
      s.next < tasks.length →
      PoolStep tasks s
        { s with next := s.next + 1, workers := s.workers.set w (.computing s.next) }
  | settleOk (s : PoolState ε τ) (w i : Nat) (t : τ) :
      s.workers[w]? = some (.computing i) →
      tasks[i]? = some (.ok t) →
      PoolStep tasks s
        { s with workers := s.workers.set w .claiming,
                 results := s.results.set i (some t) }
  | settleErr (s : PoolState ε τ) (w i : Nat) (e : ε) :
      s.workers[w]? = some (.computing i) →
      tasks[i]? = some (.error e) →
      PoolStep tasks s { s with workers := s.workers.set w (.failed i e) }

def PoolReachable {ε τ : Type} (tasks : List (Except ε τ)) (limit : Int)
    (s : PoolState ε τ) : Prop :=
  Relation.ReflTransGen (PoolStep tasks) (initPool limit tasks.length) s

/-- No step applies: the run is over. -/
def PoolStuck {ε τ : Type} (tasks : List (Except ε τ)) (s : PoolState ε τ) : Prop :=
  ∀ s', ¬ PoolStep tasks s s'

def countReturned {ε : Type} (ws : List (WorkerState ε)) : Nat :=
  ws.countP (fun w => match w with | .returned => true | _ => false)

/-- The inductive invariant of the pool. -/
structure PoolInv {ε τ : Type} (tasks : List (Except ε τ)) (W : Nat)
    (s : PoolState ε τ) : Prop where
  hres : s.results.length = tasks.length
  hw : s.workers.length = W
  hval : ∀ (i : Nat) (t : τ),
    s.results[i]? = some (some t) → tasks[i]? = some (Except.ok t)
  hcover : ∀ i, i < min s.next tasks.length →
    (∃ t, s.results[i]? = some (some t))
    ∨ (∃ (k : Nat), s.workers[k]? = some (WorkerState.computing i)
         ∨ ∃ (e : ε), s.workers[k]? = some (WorkerState.failed i e))
  hcount : countReturned s.workers + min s.next tasks.length = s.next
  hcomp : ∀ (k i : Nat),
    s.workers[k]? = some (WorkerState.computing i) → i < tasks.length
  herr : ∀ (k i : Nat) (e : ε),
    s.workers[k]? = some (WorkerState.failed i e) → tasks[i]? = some (Except.error e)

theorem countP_set {α : Type} (p : α → Bool) (l : List α) (w : Nat) (old new : α)
    (h : l[w]? = some old) :
    (l.set w new).countP p + (if p old then 1 else 0)
      = l.countP p + (if p new then 1 else 0) := by
  induction l generalizing w with
  | nil => simp at h
  | cons a t ih =>
    cases w with
    | zero =>
      simp only [List.getElem?_cons_zero, Option.some.injEq] at h
      subst h
      simp only [List.set_cons_zero, List.countP_cons]
      omega
    | succ w' =>
      simp only [List.getElem?_cons_succ] at h
      simp only [List.set_cons_succ, List.countP_cons]
      have := ih w' h
      omega

theorem countReturned_set_halt {ε : Type} (ws : List (WorkerState ε)) (w : Nat)
    (h : ws[w]? = some .claiming) :
    countReturned (ws.set w .returned) = countReturned ws + 1 := by
  have hc := countP_set (fun x => match x with | .returned => true | _ => false)
    ws w .claiming .returned h
  rw [countReturned, countReturned]
  simp at hc
  omega

theorem countReturned_set_go {ε : Type} (ws : List (WorkerState ε)) (w i : Nat)
    (h : ws[w]? = some .claiming) :
    countReturned (ws.set w (.computing i)) = countReturned ws := by
  have hc := countP_set (fun x => match x with | .returned => true | _ => false)
    ws w .claiming (.computing i) h
  rw [countReturned, countReturned]
  simp at hc
  omega

theorem countReturned_set_ok {ε : Type} (ws : List (WorkerState ε)) (w i : Nat)
    (h : ws[w]? = some (.computing i)) :
    countReturned (ws.set w .claiming) = countReturned ws := by
  have hc := countP_set (fun x => match x with | .returned => true | _ => false)
    ws w (.computing i) .claiming h
  rw [countReturned, countReturned]
  simp at hc
  omega

theorem countReturned_set_err {ε : Type} (ws : List (WorkerState ε)) (w i : Nat)
    (e : ε) (h : ws[w]? = some (.computing i)) :
    countReturned (ws.set w (.failed i e)) = countReturned ws := by
  have hc := countP_set (fun x => match x with | .returned => true | _ => false)
    ws w (.computing i) (.failed i e) h
  rw [countReturned, countReturned]
  simp at hc
  omega

theorem countReturned_replicate_claiming {ε : Type} (k : Nat) :
    countReturned (List.replicate k (.claiming : WorkerState ε)) = 0 := by
  induction k with
  | zero => rfl
  | succ k ihk =>
    rw [List.replicate_succ, countReturned, List.countP_cons]
    rw [countReturned] at ihk
    simp [ihk]

theorem getElem?_replicate_claiming {ε : Type} (W k : Nat) {w : WorkerState ε}
    (h : (List.replicate W (.claiming : WorkerState ε))[k]? = some w) :
    w = .claiming := by
  rw [List.getElem?_replicate] at h
  by_cases hk : k < W
  · rw [if_pos hk] at h
    exact (Option.some.injEq _ _ ▸ h).symm
  · rw [if_neg hk] at h
    cases h

theorem pool_inv_init {ε τ : Type} (tasks : List (Except ε τ)) (limit : Int) :
    PoolInv tasks (workerCount limit tasks.length)
      (initPool limit tasks.length : PoolState ε τ) := by
  refine ⟨?_, ?_, ?_, ?_, ?_, ?_, ?_⟩
  · simp [initPool]
  · simp [initPool]
  · intro i t h
    rw [show (initPool limit tasks.length : PoolState ε τ).results
        = List.replicate tasks.length none from rfl, List.getElem?_replicate] at h
    by_cases hi : i < tasks.length
    · rw [if_pos hi] at h
      simp at h
    · rw [if_neg hi] at h
      simp at h
  · intro i hi
    simp [initPool] at hi
  · show countReturned (List.replicate (workerCount limit tasks.length) .claiming)
        + min 0 tasks.length = 0
    simp [countReturned_replicate_claiming]
  · intro k i h
    have := getElem?_replicate_claiming (workerCount limit tasks.length) k h
    cases this
  · intro k i e h
    have := getElem?_replicate_claiming (workerCount limit tasks.length) k h
    cases this

theorem getElem?_set_cases {α : Type} (l : List α) (w k : Nat) (a : α) {x : α}
    (h : (l.set w a)[k]? = some x) :
    (k = w ∧ x = a) ∨ (k ≠ w ∧ l[k]? = some x) := by
  by_cases hk : k = w
  · subst hk
    have hlt : k < l.length := by
      have := List.getElem?_eq_some_iff.mp h
      obtain ⟨hl, _⟩ := this
      rw [List.length_set] at hl
      exact hl
    rw [List.getElem?_set_self hlt] at h
    exact Or.inl ⟨rfl, (Option.some.injEq _ _ ▸ h).symm⟩
  · rw [List.getElem?_set_ne (fun he => hk he.symm)] at h
    exact Or.inr ⟨hk, h⟩

theorem getElem?_set_of_ne {α : Type} (l : List α) (w k : Nat) (a : α) {x : α}
    (hk : k ≠ w) (h : l[k]? = some x) : (l.set w a)[k]? = some x := by
  rw [List.getElem?_set_ne (fun he => hk he.symm)]
  exact h

theorem pool_inv_step {ε τ : Type} {tasks : List (Except ε τ)} {W : Nat}
    {s s' : PoolState ε τ} (hinv : PoolInv tasks W s) (hstep : PoolStep tasks s s') :
    PoolInv tasks W s' := by
  obtain ⟨hres, hw, hval, hcover, hcount, hcomp, herr⟩ := hinv
  cases hstep with
  | claimHalt w hcl hge =>
    have hmin : min s.next tasks.length = tasks.length := Nat.min_eq_right hge
    have hmin' : min (s.next + 1) tasks.length = tasks.length :=
      Nat.min_eq_right (Nat.le_succ_of_le hge)
    refine ⟨hres, by simpa using hw, hval, ?_, ?_, ?_, ?_⟩
    · intro i hi
      rw [hmin'] at hi
      rcases hcover i (by omega) with h | ⟨k, hk⟩
      · exact Or.inl h
      · refine Or.inr ⟨k, ?_⟩
        have hkw : k ≠ w := by
          intro he
          subst he
          rcases hk with hk | ⟨e, hk⟩ <;> rw [hcl] at hk <;> cases hk
        rcases hk with hk | ⟨e, hk⟩
        · exact Or.inl (getElem?_set_of_ne _ _ _ _ hkw hk)
        · exact Or.inr ⟨e, getElem?_set_of_ne _ _ _ _ hkw hk⟩
    · show countReturned (s.workers.set w .returned) + min (s.next + 1) tasks.length
          = s.next + 1
      rw [hmin', countReturned_set_halt s.workers w hcl]
      rw [hmin] at hcount
      omega
    · intro k i h
      rcases getElem?_set_cases _ _ _ _ h with ⟨_, hx⟩ | ⟨_, hx⟩
      · cases hx
      · exact hcomp k i hx
    · intro k i e h
      rcases getElem?_set_cases _ _ _ _ h with ⟨_, hx⟩ | ⟨_, hx⟩
      · cases hx
      · exact herr k i e hx
  | claimGo w hcl hlt =>
    have hmin : min s.next tasks.length = s.next := Nat.min_eq_left (Nat.le_of_lt hlt)
    have hmin' : min (s.next + 1) tasks.length = s.next + 1 := Nat.min_eq_left hlt
    have hwlt : w < s.workers.length := by
      have := List.getElem?_eq_some_iff.mp hcl
      exact this.1
    refine ⟨hres, by simpa using hw, hval, ?_, ?_, ?_, ?_⟩
    · intro i hi
      rw [hmin'] at hi
      by_cases hie : i = s.next
      · subst hie
        exact Or.inr ⟨w, Or.inl (by rw [List.getElem?_set_self hwlt])⟩
      · rcases hcover i (by omega) with h | ⟨k, hk⟩
        · exact Or.inl h
        · refine Or.inr ⟨k, ?_⟩
          have hkw : k ≠ w := by
            intro he
            subst he
            rcases hk with hk | ⟨e, hk⟩ <;> rw [hcl] at hk <;> cases hk
          rcases hk with hk | ⟨e, hk⟩
          · exact Or.inl (getElem?_set_of_ne _ _ _ _ hkw hk)
          · exact Or.inr ⟨e, getElem?_set_of_ne _ _ _ _ hkw hk⟩
    · show countReturned (s.workers.set w (.computing s.next))
          + min (s.next + 1) tasks.length = s.next + 1
      rw [hmin', countReturned_set_go s.workers w s.next hcl]
      rw [hmin] at hcount
      omega
    · intro k i h
      rcases getElem?_set_cases _ _ _ _ h with ⟨_, hx⟩ | ⟨_, hx⟩
      · cases hx
        exact hlt
      · exact hcomp k i hx
    · intro k i e h
      rcases getElem?_set_cases _ _ _ _ h with ⟨_, hx⟩ | ⟨_, hx⟩
      · cases hx
      · exact herr k i e hx
  | settleOk w i t hco htask =>
    have hilt : i < tasks.length := hcomp w i hco
    have hires : i < s.results.length := by rw [hres]; exact hilt
    refine ⟨by simpa using hres, by simpa using hw, ?_, ?_, ?_, ?_, ?_⟩
    · intro j u h
      rcases getElem?_set_cases _ _ _ _ h with ⟨hji, hx⟩ | ⟨_, hx⟩
      · subst hji
        cases hx
        exact htask
      · exact hval j u hx
    · intro j hj
      simp only at hj
      by_cases hji : j = i
      · subst hji
        exact Or.inl ⟨t, by rw [List.getElem?_set_self hires]⟩
      · rcases hcover j hj with ⟨u, h⟩ | ⟨k, hk⟩
        · exact Or.inl ⟨u, getElem?_set_of_ne _ _ _ _ hji h⟩
        · refine Or.inr ⟨k, ?_⟩
          have hkw : k ≠ w := by
            intro he
            subst he
            rcases hk with hk | ⟨e, hk⟩ <;> rw [hco] at hk <;> cases hk <;> exact hji rfl
          rcases hk with hk | ⟨e, hk⟩
          · exact Or.inl (getElem?_set_of_ne _ _ _ _ hkw hk)
          · exact Or.inr ⟨e, getElem?_set_of_ne _ _ _ _ hkw hk⟩
    · show countReturned (s.workers.set w .claiming) + min s.next tasks.length = s.next
      rw [countReturned_set_ok s.workers w i hco]
      exact hcount
    · intro k j h
      rcases getElem?_set_cases _ _ _ _ h with ⟨_, hx⟩ | ⟨_, hx⟩
      · cases hx
      · exact hcomp k j hx
    · intro k j e h
      rcases getElem?_set_cases _ _ _ _ h with ⟨_, hx⟩ | ⟨_, hx⟩
      · cases hx
      · exact herr k j e hx
  | settleErr w i e hco htask =>
    refine ⟨hres, by simpa using hw, hval, ?_, ?_, ?_, ?_⟩
    · intro j hj
      rcases hcover j hj with h | ⟨k, hk⟩
      · exact Or.inl h
      · by_cases hkw : k = w
        · subst hkw
          rcases hk with hk | ⟨e', hk⟩
          · rw [hco] at hk
            cases hk
            refine Or.inr ⟨k, Or.inr ⟨e, ?_⟩⟩
            have hklt : k < s.workers.length := (List.getElem?_eq_some_iff.mp hco).1
            rw [List.getElem?_set_self hklt]
          · rw [hco] at hk
            cases hk
        · refine Or.inr ⟨k, ?_⟩
          rcases hk with hk | ⟨e', hk⟩
          · exact Or.inl (getElem?_set_of_ne _ _ _ _ hkw hk)
          · exact Or.inr ⟨e', getElem?_set_of_ne _ _ _ _ hkw hk⟩
    · show countReturned (s.workers.set w (.failed i e)) + min s.next tasks.length
          = s.next
      rw [countReturned_set_err s.workers w i e hco]
      exact hcount
    · intro k j h
      rcases getElem?_set_cases _ _ _ _ h with ⟨_, hx⟩ | ⟨_, hx⟩
      · cases hx
      · exact hcomp k j hx
    · intro k j e' h
      rcases getElem?_set_cases _ _ _ _ h with ⟨_, hx⟩ | ⟨_, hx⟩
      · cases hx
        exact htask
      · exact herr k j e' hx

theorem pool_inv_reachable {ε τ : Type} {tasks : List (Except ε τ)} {limit : Int}
    {s : PoolState ε τ} (hr : PoolReachable tasks limit s) :
    PoolInv tasks (workerCount limit tasks.length) s := by
  induction hr with
  | refl => exact pool_inv_init tasks limit
  | tail _ hstep ih => exact pool_inv_step ih hstep

/-- In a stuck state every worker has either returned or failed: a claiming
worker could still claim (halting or not), and a computing worker's task is in
bounds (invariant), so it could still settle. -/
theorem pool_stuck_idle {ε τ : Type} {tasks : List (Except ε τ)} {W : Nat}
    {s : PoolState ε τ} (hinv : PoolInv tasks W s) (hs : PoolStuck tasks s) :
    ∀ (k : Nat) (w : WorkerState ε), s.workers[k]? = some w → w.isIdle = true := by
  intro k w hk
  cases w with
  | claiming =>
    by_cases hlt : s.next < tasks.length
    · exact absurd (PoolStep.claimGo s k hk hlt) (hs _)
    · exact absurd (PoolStep.claimHalt s k hk (Nat.le_of_not_lt hlt)) (hs _)
  | computing i =>
    have hilt : i < tasks.length := hinv.hcomp k i hk
    have : tasks[i]? = some tasks[i] := List.getElem?_eq_getElem hilt
    cases hx : tasks[i] with
    | ok t =>
      rw [hx] at this
      exact absurd (PoolStep.settleOk s k i t hk this) (hs _)
    | error e =>
      rw [hx] at this
      exact absurd (PoolStep.settleErr s k i e hk this) (hs _)
  | returned => rfl
  | failed i e => rfl

theorem workerCount_pos (limit : Int) (n : Nat) (hn : 1 ≤ n) :
    1 ≤ workerCount limit n := by
  rw [workerCount, clampLimit]
  split <;> omega

theorem countReturned_eq_length {ε : Type} (ws : List (WorkerState ε))
    (h : ∀ (k : Nat) (w : WorkerState ε), ws[k]? = some w → w = .returned) :
    countReturned ws = ws.length := by
  rw [countReturned, List.countP_eq_length]
  intro a ha
  obtain ⟨k, hk, hget⟩ := List.mem_iff_getElem.mp ha
  have := h k a (by rw [List.getElem?_eq_getElem hk, hget])
  subst this
  rfl

/-- In a normally completed run (every worker returned) every slot is filled
with the value of its own task, which in particular succeeded. -/
theorem pool_done_full {ε τ : Type} {tasks : List (Except ε τ)} {limit : Int}
    {s : PoolState ε τ} (hr : PoolReachable tasks limit s)
    (hdone : ∀ (k : Nat) (w : WorkerState ε), s.workers[k]? = some w → w = .returned) :
    ∀ i, i < tasks.length →
      ∃ t, s.results[i]? = some (some t) ∧ tasks[i]? = some (Except.ok t) := by
  intro i hi
  have hinv := pool_inv_reachable hr
  obtain ⟨hres, hw, hval, hcover, hcount, hcomp, herr⟩ := hinv
  have hW : 1 ≤ workerCount limit tasks.length :=
    workerCount_pos limit tasks.length (by omega)
  have hcr : countReturned s.workers = workerCount limit tasks.length := by
    rw [countReturned_eq_length s.workers hdone, hw]
  have hnext : tasks.length ≤ s.next := by
    by_cases hlt : s.next < tasks.length
    · rw [Nat.min_eq_left (Nat.le_of_lt hlt)] at hcount
      omega
    · omega
  rcases hcover i (by omega) with ⟨t, ht⟩ | ⟨k, hk⟩
  · exact ⟨t, ht, hval i t ht⟩
  · exfalso
    rcases hk with hk | ⟨e, hk⟩
    · have := hdone k _ hk
      cases this
    · have := hdone k _ hk
      cases this

/-- A run of the pool that completed normally (every worker returned) has
filled every result slot with its own task's value. -/
theorem pool_returned_results {ε τ : Type} {tasks : List (Except ε τ)} {limit : Int}
    {s : PoolState ε τ} (hr : PoolReachable tasks limit s)
    (hdone : ∀ (k : Nat) (w : WorkerState ε), s.workers[k]? = some w → w = .returned) :
    s.results = tasks.map Except.toOption := by
  have hres := (pool_inv_reachable hr).hres
  apply List.ext_getElem?
  intro i
  by_cases hi : i < tasks.length
  · obtain ⟨t, ht, htask⟩ := pool_done_full hr hdone i hi
    have hg : tasks[i]? = some tasks[i] := List.getElem?_eq_getElem hi
    rw [hg] at htask
    rw [ht, List.getElem?_map, hg]
    have := Option.some.inj htask
    rw [this]
    rfl
  · have h1 : s.results[i]? = none := by
      rw [List.getElem?_eq_none_iff]
      omega
    have h2 : (tasks.map Except.toOption)[i]? = none := by
      rw [List.getElem?_eq_none_iff]
      rw [List.length_map]
      omega
    rw [h1, h2]

/-- In a stuck state of the pool, a failed worker exists exactly when some
task settles with an error. -/
theorem pool_stuck_failed_iff {ε τ : Type} {tasks : List (Except ε τ)} {limit : Int}
    {s : PoolState ε τ} (hr : PoolReachable tasks limit s) (hs : PoolStuck tasks s) :
    (∃ (k i : Nat) (e : ε), s.workers[k]? = some (WorkerState.failed i e))
      ↔ (∃ (i : Nat) (e : ε), tasks[i]? = some (Except.error e)) := by
  constructor
  · rintro ⟨k, i, e, hk⟩
    exact ⟨i, e, (pool_inv_reachable hr).herr k i e hk⟩
  · rintro ⟨i, e, hie⟩
    by_contra hno
    have hnone : ∀ (k i : Nat) (e : ε),
        ¬ s.workers[k]? = some (WorkerState.failed i e) := by
      intro k j e' hk
      exact hno ⟨k, j, e', hk⟩
    have hidle := pool_stuck_idle (pool_inv_reachable hr) hs
    have hdone : ∀ (k : Nat) (w : WorkerState ε),
        s.workers[k]? = some w → w = .returned := by
      intro k w hk
      have hid := hidle k w hk
      cases w with
      | returned => rfl
      | failed j e' => exact absurd hk (hnone k j e')
      | claiming => cases hid
      | computing j => cases hid
    have hi : i < tasks.length := (List.getElem?_eq_some_iff.mp hie).1
    obtain ⟨t, _, htask⟩ := pool_done_full hr hdone i hi
    rw [hie] at htask
    cases htask

/-- A state whose workers have all returned or failed is stuck: every step
requires a claiming or computing worker. -/
theorem pool_stuck_of_idle {ε τ : Type} {tasks : List (Except ε τ)}
    {s : PoolState ε τ}
    (h : ∀ (k : Nat) (w : WorkerState ε), s.workers[k]? = some w → w.isIdle = true) :
    PoolStuck tasks s := by
  intro s' hstep
  cases hstep with
  | claimHalt w hcl _ => exact Bool.noConfusion (h w _ hcl)
  | claimGo w hcl _ => exact Bool.noConfusion (h w _ hcl)
  | settleOk w i t hco _ => exact Bool.noConfusion (h w _ hco)
  | settleErr w i e hco _ => exact Bool.noConfusion (h w _ hco)

/-- Concrete two-task run of the pool at limit 1, driven to completion. -/
def poolTraceState : PoolState Unit Nat :=
  { next := 3, results := [some 10, some 20], workers := [.returned] }

theorem poolTrace_reachable :
    PoolReachable [Except.ok 10, Except.ok 20] 1 poolTraceState := by
  have h1 : PoolStep ([Except.ok 10, Except.ok 20] : List (Except Unit Nat))
      (initPool 1 2 : PoolState Unit Nat)
      { next := 1, results := [none, none], workers := [.computing 0] } :=
    PoolStep.claimGo (initPool 1 2 : PoolState Unit Nat) 0 rfl (by decide)
  have h2 : PoolStep ([Except.ok 10, Except.ok 20] : List (Except Unit Nat))
      { next := 1, results := [none, none], workers := [.computing 0] }
      { next := 1, results := [some 10, none], workers := [.claiming] } :=
    PoolStep.settleOk _ 0 0 10 rfl rfl
  have h3 : PoolStep ([Except.ok 10, Except.ok 20] : List (Except Unit Nat))
      { next := 1, results := [some 10, none], workers := [.claiming] }
      { next := 2, results := [some 10, none], workers := [.computing 1] } :=
    PoolStep.claimGo _ 0 rfl (by decide)
  have h4 : PoolStep ([Except.ok 10, Except.ok 20] : List (Except Unit Nat))
      { next := 2, results := [some 10, none], workers := [.computing 1] }
      { next := 2, results := [some 10, some 20], workers := [.claiming] } :=
    PoolStep.settleOk _ 0 1 20 rfl rfl
  have h5 : PoolStep ([Except.ok 10, Except.ok 20] : List (Except Unit Nat))
      { next := 2, results := [some 10, some 20], workers := [.claiming] }
      poolTraceState :=
    PoolStep.claimHalt _ 0 rfl (by decide)
  exact Relation.ReflTransGen.tail
    (Relation.ReflTransGen.tail
      (Relation.ReflTransGen.tail
        (Relation.ReflTransGen.tail
          (Relation.ReflTransGen.tail Relation.ReflTransGen.refl h1) h2) h3) h4) h5

theorem poolTrace_done :
    ∀ (k : Nat) (w : WorkerState Unit),
      poolTraceState.workers[k]? = some w → w = .returned := by
  intro k w hk
  match k with
  | 0 => exact (Option.some.inj hk).symm
  | k + 1 => exact Option.noConfusion hk

/-- Concrete one-task run of the pool whose task errors. -/
def poolErrTraceState : PoolState Nat Nat :=
  { next := 1, results := [none], workers := [.failed 0 7] }

theorem poolErrTrace_reachable :
    PoolReachable [Except.error 7] 1 poolErrTraceState := by
  have h1 : PoolStep [(Except.error 7 : Except Nat Nat)]
      (initPool 1 1 : PoolState Nat Nat)
      { next := 1, results := [none], workers := [.computing 0] } :=
    PoolStep.claimGo (initPool 1 1 : PoolState Nat Nat) 0 rfl (by decide)
  have h2 : PoolStep [(Except.error 7 : Except Nat Nat)]
      { next := 1, results := [none], workers := [.computing 0] }
      poolErrTraceState :=
    PoolStep.settleErr _ 0 0 7 rfl rfl
  exact Relation.ReflTransGen.tail
    (Relation.ReflTransGen.tail Relation.ReflTransGen.refl h1) h2

theorem poolErrTrace_stuck : PoolStuck [Except.error 7] poolErrTraceState := by
  apply pool_stuck_of_idle
  intro k w hk
  match k with
  | 0 =>
    have := (Option.some.inj hk).symm
    subst this
    rfl
  | k + 1 => exact Option.noConfusion hk

/-- C2: for every task list and concurrency limit, whenever the pool's workers
have all returned (the run of runPool completed normally, under any
interleaving of claims and settlements), the results array has the tasks'
length and its element at index i is the value of input task i. -/
theorem runPool_results_indexed {ε τ : Type} (tasks : List (Except ε τ)) (limit : Int)
    (s : PoolState ε τ) (hr : PoolReachable tasks limit s)
    (hdone : ∀ (k : Nat) (w : WorkerState ε), s.workers[k]? = some w → w = .returned) :
    s.results.length = tasks.length ∧ s.results = tasks.map Except.toOption :=
  ⟨(pool_inv_reachable hr).hres, pool_returned_results hr hdone⟩

/-- Witness for C2: the concrete two-task run at limit 1 ends with results
[some 10, some 20], slot i holding task i's value. -/
theorem runPool_results_indexed_witness :
    poolTraceState.results
        = ([Except.ok 10, Except.ok 20] : List (Except Unit Nat)).map Except.toOption
      ∧ poolTraceState.results = [some 10, some 20] :=
  ⟨(runPool_results_indexed [Except.ok 10, Except.ok 20] 1 poolTraceState
      poolTrace_reachable poolTrace_done).2, rfl⟩

/-- C8: in any finished (stuck) state of the pool, a worker ended in the
failed state (runPool's Promise.all rejects) exactly when some task settles
with an error; every failed worker carries exactly its task's error; and when
every task succeeds, every worker returned, so runPool resolves normally. -/
theorem runPool_raises_iff {ε τ : Type} (tasks : List (Except ε τ)) (limit : Int)
    (s : PoolState ε τ) (hr : PoolReachable tasks limit s) (hs : PoolStuck tasks s) :
    ((∃ (k i : Nat) (e : ε), s.workers[k]? = some (WorkerState.failed i e))
        ↔ (∃ (i : Nat) (e : ε), tasks[i]? = some (Except.error e)))
      ∧ (∀ (k i : Nat) (e : ε), s.workers[k]? = some (WorkerState.failed i e) →
          tasks[i]? = some (Except.error e))
      ∧ ((∀ x ∈ tasks, ∃ t, x = Except.ok t) →
          ∀ (k : Nat) (w : WorkerState ε), s.workers[k]? = some w → w = .returned) := by
  refine ⟨pool_stuck_failed_iff hr hs, (pool_inv_reachable hr).herr, ?_⟩
  intro hok k w hk
  have hid := pool_stuck_idle (pool_inv_reachable hr) hs k w hk
  cases w with
  | returned => rfl
  | claiming => cases hid
  | computing i => cases hid
  | failed i e =>
    have herr' := (pool_inv_reachable hr).herr k i e hk
    have hi : i < tasks.length := (List.getElem?_eq_some_iff.mp herr').1
    have hg : tasks[i]? = some tasks[i] := List.getElem?_eq_getElem hi
    rw [hg] at herr'
    have heq := Option.some.inj herr'
    obtain ⟨t, ht⟩ := hok tasks[i] (List.getElem_mem hi)
    rw [heq] at ht
    cases ht

/-- Witness for C8: in the concrete erroring run, a failed worker exists and
an erroring task exists; the theorem's equivalence links them. -/
theorem runPool_raises_iff_witness :
    (∃ (k i e : Nat), poolErrTraceState.workers[k]? = some (WorkerState.failed i e))
      ∧ (∃ (i e : Nat),
          ([Except.error 7] : List (Except Nat Nat))[i]? = some (Except.error e)) :=
  ⟨(runPool_raises_iff [Except.error 7] 1 poolErrTraceState
      poolErrTrace_reachable poolErrTrace_stuck).1.mpr ⟨0, 7, rfl⟩, ⟨0, 7, rfl⟩⟩

/-- C9: the concurrency limit is clamped below at 1 (0 or negative behaves
exactly as limit 1, including an identical initial pool state) and the worker
count is capped at the number of tasks; for a positive requested limit
exactly min(limit, N) workers are spawned. -/
theorem runPool_limit_clamped (limit : Int) (n : Nat) :
    clampLimit limit = max 1 limit
      ∧ workerCount limit n ≤ n
      ∧ (1 ≤ n → 1 ≤ workerCount limit n)
      ∧ (limit ≤ 0 → ∀ (ε τ : Type),
          (initPool limit n : PoolState ε τ) = initPool 1 n)
      ∧ (1 ≤ limit → workerCount limit n = min limit.toNat n) := by
  refine ⟨?_, ?_, ?_, ?_, ?_⟩
  · rw [clampLimit]
    split <;> omega
  · rw [workerCount]
    omega
  · intro h
    exact workerCount_pos limit n h
  · intro h ε τ
    have hwc : workerCount limit n = workerCount 1 n := by
      rw [workerCount, workerCount, clampLimit, clampLimit]
      split <;> split <;> omega
    show ({ next := 0, results := List.replicate n none,
            workers := List.replicate (workerCount limit n) .claiming } : PoolState ε τ)
        = { next := 0, results := List.replicate n none,
            workers := List.replicate (workerCount 1 n) .claiming }
    rw [hwc]
  · intro h
    rw [workerCount, clampLimit, if_neg (by omega)]

/-- Witness for C9: at requested limit -3 with 2 tasks the pool clamps to one
worker and starts exactly as limit 1 would; at limit 5 it spawns min(5,2)
workers. -/
theorem runPool_limit_clamped_witness :
    clampLimit (-3) = max 1 (-3)
      ∧ workerCount (-3) 2 ≤ 2
      ∧ 1 ≤ workerCount (-3) 2
      ∧ (initPool (-3) 2 : PoolState Unit Nat) = initPool 1 2
      ∧ workerCount 5 2 = min (Int.toNat 5) 2 :=
  ⟨(runPool_limit_clamped (-3) 2).1,
   (runPool_limit_clamped (-3) 2).2.1,
   (runPool_limit_clamped (-3) 2).2.2.1 (by decide),
   (runPool_limit_clamped (-3) 2).2.2.2.1 (by decide) Unit Nat,
   (runPool_limit_clamped 5 2).2.2.2.2 (by decide)⟩

/-! ## The remaining claim theorems -/

mutual
/-- Whether the modelled tree contains, at any depth and regardless of
readability or the scans' depth limits, a file whose name ends in `ext`. -/
def containsExt (ext : String) : FSEntry → Bool
  | .file n => strEndsWith n ext
  | .dir _ _ cs => containsExtList ext cs
def containsExtList (ext : String) : List FSEntry → Bool
  | [] => false
  | e :: es => containsExt ext e || containsExtList ext es
end

/-- A chain of `n` nested readable directories with a single `deep.go`
file at the bottom. -/
def deepChain : Nat → FSEntry
  | 0 => FSEntry.file "deep.go"
  | n + 1 => FSEntry.dir "d" true [deepChain n]

/-- C1: the titles persisted for a target are NOT forced to the fixed title
list — they are exactly whatever titles the backend's decoded response
carries (`parsed.hints || []` flows to the writer unvalidated), and the
fixed list influences nothing but the prompt.  This corrects the claim:
title fidelity for every possible backend response does not hold. -/
theorem hints_titles_from_response (fixedTitles fixedTitles' : List String)
    (resp : HintsResponse) :
    extractTitles (writeTargetHintsText (generateHints fixedTitles resp))
      = (resp.hints.getD []).map (fun h => h.title_markdown)
    ∧ generateHints fixedTitles resp = generateHints fixedTitles' resp := by
  constructor
  · rw [extractTitles_writeTargetHintsText]
    rfl
  · rfl

/-- Counterexample to C1 as stated: with fixed titles ["A", "B"], a backend
response carrying the single title "X" is persisted with title "X" — the
written file's titles differ from the fixed list in count and text. -/
theorem generateHints_fixed_titles_cex :
    extractTitles (writeTargetHintsText (generateHints ["A", "B"]
        { hints := some [{ title_markdown := "X", body_markdown := "b" }] }))
      = ["X"]
    ∧ (["X"] ≠ ["A", "B"]) := by
  constructor
  · decide
  · decide

/-- C3: when some conventional root's bounded scan finds a hit, the result
comes from the first root (in the fixed order src, lib, app, Sources) whose
own depth-12, failure-swallowing scan is nonempty — not necessarily the
first root that contains a matching file — and within that root the hit
minimizes preferred-name rank, then depth, then path. -/
theorem findMainFile_first_scanned_root (baseDir n : String) (rb : Bool)
    (top : List FSEntry) (ext : String) (k : Nat) (hk : k < ROOTS.length)
    (hprev : ∀ j (hj : j < ROOTS.length), j < k →
      rootScan baseDir top ext (ROOTS.get ⟨j, hj⟩) = [])
    (hcur : rootScan baseDir top ext (ROOTS.get ⟨k, hk⟩) ≠ []) :
    ∃ m, m ∈ rootScan baseDir top ext (ROOTS.get ⟨k, hk⟩)
      ∧ (∀ x ∈ rootScan baseDir top ext (ROOTS.get ⟨k, hk⟩), p1Le m x = true)
      ∧ findMainFileRecursive baseDir (.dir n rb top) ext = some m.fp := by
  have hh : phase1Hits baseDir top ext = rootScan baseDir top ext (ROOTS.get ⟨k, hk⟩) :=
    phase1Hits_first baseDir top ext k hk hprev hcur
  cases hm : minHit p1Le (phase1Hits baseDir top ext) with
  | none =>
    rw [hh, minHit_eq_none_iff] at hm
    exact absurd hm hcur
  | some m =>
    have hm' := hm
    rw [hh] at hm'
    obtain ⟨hmem, hmin⟩ := minHit_mem_min p1Le p1Le_refl p1Le_total p1Le_trans _ m hm'
    refine ⟨m, hmem, hmin, ?_⟩
    show (match minHit p1Le (phase1Hits baseDir (FSEntry.dir n rb top).childrenOf ext) with
      | some h => some h.fp
      | none => (minHit p2Le
          (scanQueue ext 20 [qItemOfEntry baseDir (FSEntry.dir n rb top) 0])).map
            (fun h => h.fp)) = some m.fp
    rw [show (FSEntry.dir n rb top).childrenOf = top from rfl, hm]

/-- Witness for C3: with no src root and a lib root holding main.go, the
second root (index 1) supplies the result. -/
theorem findMainFile_first_scanned_root_witness :
    ∃ m, m ∈ rootScan "base" [FSEntry.dir "lib" true [FSEntry.file "main.go"]] ".go"
          (ROOTS.get ⟨1, by decide⟩)
      ∧ (∀ x ∈ rootScan "base" [FSEntry.dir "lib" true [FSEntry.file "main.go"]] ".go"
          (ROOTS.get ⟨1, by decide⟩), p1Le m x = true)
      ∧ findMainFileRecursive "base"
          (.dir "root" true [FSEntry.dir "lib" true [FSEntry.file "main.go"]]) ".go"
        = some m.fp :=
  findMainFile_first_scanned_root "base" "root" true
    [FSEntry.dir "lib" true [FSEntry.file "main.go"]] ".go" 1 (by decide)
    (by decide) (by decide)

/-- Counterexample to C3 as stated: src contains a .go file (behind an
unreadable subdirectory, which the scan swallows as empty), so src is the
first conventional root containing a matching file, yet the result comes
from lib. -/
theorem findMainFile_first_root_cex :
    findMainFileRecursive "base" (FSEntry.dir "root" true
        [FSEntry.dir "src" true [FSEntry.dir "inner" false [FSEntry.file "main.go"]],
         FSEntry.dir "lib" true [FSEntry.file "a.go"]]) ".go"
      = some "base/lib/a.go"
    ∧ containsExt ".go"
        (FSEntry.dir "src" true [FSEntry.dir "inner" false [FSEntry.file "main.go"]])
      = true := by
  constructor
  · decide
  · decide

/-- C4: phase 2 runs exactly when every conventional root's bounded scan
found nothing; it scans the whole tree from the base at depth limit 20
(failures swallowed) and returns the hit minimizing the phase-2 order:
deepest first, then preferred-name rank, then path — the deepest among the
hits the bounded scan can see, not the whole tree's deepest file. -/
theorem findMainFile_phase2_deepest (baseDir : String) (fs : FSEntry) (ext : String)
    (hempty : phase1Hits baseDir fs.childrenOf ext = [])
    (hne : scanQueue ext 20 [qItemOfEntry baseDir fs 0] ≠ []) :
    ∃ m, m ∈ scanQueue ext 20 [qItemOfEntry baseDir fs 0]
      ∧ (∀ x ∈ scanQueue ext 20 [qItemOfEntry baseDir fs 0], p2Le m x = true)
      ∧ findMainFileRecursive baseDir fs ext = some m.fp := by
  cases hm : minHit p2Le (scanQueue ext 20 [qItemOfEntry baseDir fs 0]) with
  | none =>
    rw [minHit_eq_none_iff] at hm
    exact absurd hm hne
  | some m =>
    obtain ⟨hmem, hmin⟩ := minHit_mem_min p2Le p2Le_refl p2Le_total p2Le_trans _ m hm
    refine ⟨m, hmem, hmin, ?_⟩
    show (match minHit p1Le (phase1Hits baseDir fs.childrenOf ext) with
      | some h => some h.fp
      | none => (minHit p2Le
          (scanQueue ext 20 [qItemOfEntry baseDir fs 0])).map (fun h => h.fp)) = some m.fp
    rw [hempty]
    show (minHit p2Le (scanQueue ext 20 [qItemOfEntry baseDir fs 0])).map (fun h => h.fp)
        = some m.fp
    rw [hm]
    rfl

/-- Witness for C4: no conventional roots, so phase 2 picks main.go at
depth 1 over a.go at depth 0 (deepest wins). -/
theorem findMainFile_phase2_deepest_witness :
    ∃ m, m ∈ scanQueue ".go" 20 [qItemOfEntry "base"
          (FSEntry.dir "root" true
            [FSEntry.dir "x" true [FSEntry.file "main.go"], FSEntry.file "a.go"]) 0]
      ∧ (∀ x ∈ scanQueue ".go" 20 [qItemOfEntry "base"
          (FSEntry.dir "root" true
            [FSEntry.dir "x" true [FSEntry.file "main.go"], FSEntry.file "a.go"]) 0],
          p2Le m x = true)
      ∧ findMainFileRecursive "base"
          (FSEntry.dir "root" true
            [FSEntry.dir "x" true [FSEntry.file "main.go"], FSEntry.file "a.go"]) ".go"
        = some m.fp :=
  findMainFile_phase2_deepest "base"
    (FSEntry.dir "root" true
      [FSEntry.dir "x" true [FSEntry.file "main.go"], FSEntry.file "a.go"]) ".go"
    (by decide) (by decide)

/-- Counterexample to C4 as stated: with no conventional roots, a matching
file nested 21 directories deep exists in the tree, but phase 2's depth
limit of 20 never reaches it, and the shallow match at depth 0 is returned
instead of the tree's deepest match. -/
theorem findMainFile_phase2_depth_cex :
    findMainFileRecursive "base"
        (FSEntry.dir "root" true [FSEntry.file "shallow.go", deepChain 21]) ".go"
      = some "base/shallow.go"
    ∧ containsExt ".go" (deepChain 21) = true
    ∧ phase1Hits "base" [FSEntry.file "shallow.go", deepChain 21] ".go" = [] := by
  refine ⟨by decide, by decide, by decide⟩

/-- C5: writing a hint list and re-reading the file yields the same titles
(for arbitrary titles, quotes included) and the same bodies up to the
block-literal trailing-newline chomping, PROVIDED each body has no carriage
return and no line beginning with a space; such a line shifts the block
scalar's auto-detected indentation and is read back changed, so the claim
as stated (for every list of hints) is corrected to this guarded form. -/
theorem hints_file_roundtrip (hints : List Hint)
    (hok : ∀ h ∈ hints, bodyOk h.body_markdown = true) :
    readReferenceHints (some (writeTargetHintsText hints))
      = hints.map (fun h =>
          { title_markdown := h.title_markdown,
            body_markdown := chompBody h.body_markdown }) := by
  show (parseHintsDoc (writeTargetHintsText hints)).getD [] = _
  rw [parseHintsDoc_writeTargetHintsText hints hok]
  rfl

/-- Witness for C5: a hint whose title carries quotes and whose body has an
embedded newline and a trailing newline round-trips, the trailing newline
chomped. -/
theorem hints_file_roundtrip_witness :
    readReferenceHints (some (writeTargetHintsText
        [{ title_markdown := "Use \"x\"?", body_markdown := "line1\nline2\n" }]))
      = [{ title_markdown := "Use \"x\"?", body_markdown := "line1\nline2" }] := by
  rw [hints_file_roundtrip
    [{ title_markdown := "Use \"x\"?", body_markdown := "line1\nline2\n" }] (by decide)]
  decide

/-- Counterexample to C5 as stated: the body " x" (leading space) is
written as a block line of seven spaces plus "x", the reader auto-detects
indentation 7, and the body reads back as "x" — a change chomping does not
explain, since " x" has no trailing newline to chomp. -/
theorem hints_roundtrip_leading_space_cex :
    readReferenceHints (some (writeTargetHintsText
        [{ title_markdown := "t", body_markdown := " x" }]))
      = [{ title_markdown := "t", body_markdown := "x" }]
    ∧ chompBody " x" = " x" := by
  constructor
  · decide
  · decide

/-- C6: with the dry-run flag set, the final solution-file write and the
hints-file write are skipped and the returned path is unchanged — but the
dry run is NOT write-free: the starter wipe (rm -rf), ensureDir and starter
recopy of prepareSolutionCodeDir run regardless, so the dry trace is the
real trace minus exactly the file writes.  This corrects the claim that no
filesystem write occurs anywhere. -/
theorem dry_run_skips_only_file_writes (starterExists : Bool) (mainFound : Option String)
    (projectRoot slug language stageId solutionCode : String) (hints : List Hint) :
    ((writeSolutionOverStarter starterExists mainFound projectRoot slug language stageId
        solutionCode true).2
      = ((writeSolutionOverStarter starterExists mainFound projectRoot slug language stageId
        solutionCode false).2).filter (fun e => ! e.isWrite))
    ∧ ((writeSolutionOverStarter starterExists mainFound projectRoot slug language stageId
        solutionCode true).2).all (fun e => ! e.isWrite) = true
    ∧ (writeSolutionOverStarter starterExists mainFound projectRoot slug language stageId
        solutionCode true).1
      = (writeSolutionOverStarter starterExists mainFound projectRoot slug language stageId
        solutionCode false).1
    ∧ writeTargetHintsEffects projectRoot slug language stageId hints true = [] := by
  cases starterExists with
  | false => exact ⟨rfl, rfl, rfl, rfl⟩
  | true =>
    cases mainFound with
    | none => exact ⟨rfl, rfl, rfl, rfl⟩
    | some p => exact ⟨rfl, rfl, rfl, rfl⟩

/-- Counterexample to C6 as stated: a dry run of writeSolutionOverStarter
still wipes the destination directory and recopies the starter over it —
its effect trace is not empty. -/
theorem dry_run_still_wipes_cex :
    (writeSolutionOverStarter true (some "p") "r" "sl" "go" "s2" "c" true).2
      = [FsEffect.rmrf (solutionCodeDir "r" "sl" "go" "s2"),
         FsEffect.mkdirp (dirname (solutionCodeDir "r" "sl" "go" "s2")),
         FsEffect.copyDir (starterDir "r" "sl" "go") (solutionCodeDir "r" "sl" "go" "s2")]
    ∧ (writeSolutionOverStarter true (some "p") "r" "sl" "go" "s2" "c" true).2 ≠ [] := by
  constructor
  · rfl
  · decide

/-- C7: the file-discovery heuristic is a total function of the modelled
tree (it always returns a path or none, never raising), and a directory
whose read fails is indistinguishable from a readable empty directory:
sanitizing every failed read below the base into an empty readable
directory leaves the result unchanged. -/
theorem findMainFile_read_failure_swallowed (baseDir n : String) (r : Bool)
    (cs : List FSEntry) (ext : String) :
    findMainFileRecursive baseDir (.dir n r (sanitizeList cs)) ext
      = findMainFileRecursive baseDir (.dir n r cs) ext :=
  findMainFileRecursive_sanitize baseDir n r cs ext

/-- C10: when the starter template does not exist, prepareSolutionCodeDir
raises its error having performed no filesystem mutation at all — in
particular the destination solutions/<language>/<stageId>/code directory is
untouched — because the existence check precedes the wipe; when the starter
exists, the wipe, ensure and copy happen in that order. -/
theorem prepareSolutionCodeDir_missing_starter_atomic
    (projectRoot slug language stageId : String) :
    (prepareSolutionCodeDir false projectRoot slug language stageId).2 = []
    ∧ (prepareSolutionCodeDir false projectRoot slug language stageId).1
        = Except.error ("compiled_starters/" ++ language ++ " not found at "
            ++ starterDir projectRoot slug language)
    ∧ (prepareSolutionCodeDir true projectRoot slug language stageId).2
        = [FsEffect.rmrf (solutionCodeDir projectRoot slug language stageId),
           FsEffect.mkdirp (dirname (solutionCodeDir projectRoot slug language stageId)),
           FsEffect.copyDir (starterDir projectRoot slug language)
             (solutionCodeDir projectRoot slug language stageId)] :=
  ⟨rfl, rfl, rfl⟩

end StageGen
